import Mathlib

/-!
Verification of the isolation-and-correlation engine of the
salons-market-functional repository.

The definitions below are a shallow embedding of the JavaScript sources:
  * `src/services/employee-isolation-manager.js` (EmployeeIsolationManager)
  * `src/unnamed/part_001` (WebhookHandler: sendToolCalls,
    sendWebhookWithRetry, processWebhookResponse)
  * `src/services/openai-client.js` (pollRunStatus)
  * `src/routes/storage.js` (POST /ask run-busy guard)

Modelling conventions:
  * JavaScript `Map` objects are modelled by `JMap`, an association list
    whose `store` replaces any existing binding and whose `remove` deletes
    it; `size` is the number of entries.
  * `Date.now()` is modelled by an explicit `now : Nat` argument; all
    reads of the clock inside one synchronous JS function are modelled by
    the same value.
  * Thrown JS errors are modelled by `Except`.  In every embedded function
    the source throws strictly before its first state mutation, so an
    error result carries no new state: the caller keeps the old state.
  * The truncated SHA-256 correlation key is modelled by a structure
    holding the hashed components; the hash is assumed collision-free.
  * The random isolation key is modelled by an opaque string chosen at
    initialisation (and a caller-supplied fresh string on reset).
-/

set_option linter.unusedSectionVars false

namespace SalonsMarket

/-- Decidable equality of `Except` results, for evaluating the embedded
fallible operations on concrete inputs. -/
instance {ε α : Type} [DecidableEq ε] [DecidableEq α] :
    DecidableEq (Except ε α) := fun x y =>
  match x, y with
  | .ok a, .ok b =>
    if h : a = b then isTrue (by rw [h])
    else isFalse (by intro hc; cases hc; exact h rfl)
  | .ok _, .error _ => isFalse (by intro hc; cases hc)
  | .error _, .ok _ => isFalse (by intro hc; cases hc)
  | .error a, .error b =>
    if h : a = b then isTrue (by rw [h])
    else isFalse (by intro hc; cases hc; exact h rfl)

/-- Model of a JavaScript `Map`: an association list.  All states built by
the embedded operations have nodup keys. -/
abbrev JMap (κ ν : Type) := List (κ × ν)

namespace JMap

variable {κ ν : Type} [DecidableEq κ]

/-- Model of `Map.get`: value of the first binding of the key, if any. -/
def look (m : JMap κ ν) (k : κ) : Option ν :=
  (m.find? (fun e => decide (e.1 = k))).map (·.2)

/-- Model of `Map.set`: bind `k` to `v`, dropping any previous binding of `k`. -/
def store (m : JMap κ ν) (k : κ) (v : ν) : JMap κ ν :=
  (k, v) :: m.filter (fun e => decide (e.1 ≠ k))

/-- Model of `Map.delete`: drop the binding of `k`. -/
def remove (m : JMap κ ν) (k : κ) : JMap κ ν :=
  m.filter (fun e => decide (e.1 ≠ k))

/-- Model of `Map.size`. -/
def size (m : JMap κ ν) : Nat := m.length

/-- The list of keys of the map. -/
def keys (m : JMap κ ν) : List κ := m.map Prod.fst

/-- Key distinctness; holds for every state the embedded code builds. -/
def NodupKeys (m : JMap κ ν) : Prop := m.keys.Nodup

@[simp] theorem look_nil (k : κ) : look ([] : JMap κ ν) k = none := rfl

theorem look_cons (e : κ × ν) (m : JMap κ ν) (k : κ) :
    look (e :: m) k = if e.1 = k then some e.2 else look m k := by
  by_cases h : e.1 = k <;> simp [look, List.find?, h]

@[simp] theorem look_store_self (m : JMap κ ν) (k : κ) (v : ν) :
    look (store m k v) k = some v := by
  simp [store, look_cons]

theorem look_filter_of_keeps (m : JMap κ ν) (p : κ × ν → Bool) (k : κ)
    (hp : ∀ v, p (k, v) = true) :
    look (m.filter p) k = look m k := by
  induction m with
  | nil => rfl
  | cons e m ih =>
    rcases e with ⟨a, b⟩
    by_cases h : a = k
    · subst h
      rw [List.filter_cons, if_pos (by simpa using hp b)]
      simp [look_cons, ih]
    · by_cases hpe : p (a, b) = true
      · rw [List.filter_cons, if_pos (by simpa using hpe)]
        simp [look_cons, h, ih]
      · rw [List.filter_cons, if_neg (by simpa using hpe)]
        rw [ih, look_cons, if_neg (by simpa using h)]

theorem look_store_ne (m : JMap κ ν) (k k' : κ) (v : ν) (h : k' ≠ k) :
    look (store m k v) k' = look m k' := by
  rw [store, look_cons, if_neg (by simpa using fun h' : k = k' => h h'.symm)]
  exact look_filter_of_keeps m _ k' (by intro v'; simp [h])

@[simp] theorem look_remove_self (m : JMap κ ν) (k : κ) :
    look (remove m k) k = none := by
  unfold remove
  induction m with
  | nil => rfl
  | cons e m ih =>
    rcases e with ⟨a, b⟩
    by_cases h : a = k
    · subst h
      rw [List.filter_cons, if_neg (by simp)]
      exact ih
    · rw [List.filter_cons, if_pos (by simpa using h)]
      simpa [look_cons, h] using ih

theorem look_remove_ne (m : JMap κ ν) (k k' : κ) (h : k' ≠ k) :
    look (remove m k) k' = look m k' := by
  exact look_filter_of_keeps m _ k' (by intro v'; simp [h])

theorem mem_of_look (m : JMap κ ν) (k : κ) (v : ν) (h : look m k = some v) :
    (k, v) ∈ m := by
  induction m with
  | nil => simp [look] at h
  | cons e m ih =>
    rcases e with ⟨a, b⟩
    rw [look_cons] at h
    by_cases ha : a = k
    · subst ha
      rw [if_pos rfl] at h
      cases h
      exact List.mem_cons_self _ _
    · rw [if_neg (by simpa using ha)] at h
      exact List.mem_cons_of_mem _ (ih h)

theorem look_isSome_of_mem (m : JMap κ ν) (k : κ) (v : ν) (h : (k, v) ∈ m) :
    (look m k).isSome := by
  induction m with
  | nil => simp at h
  | cons e m ih =>
    rw [look_cons]
    by_cases ha : e.1 = k
    · simp [ha]
    · rw [if_neg ha]
      rcases List.mem_cons.mp h with h1 | h1
      · exact absurd (congrArg Prod.fst h1.symm) ha
      · exact ih h1

theorem look_eq_of_mem_nodup (m : JMap κ ν) (hm : NodupKeys m) (k : κ) (v : ν)
    (h : (k, v) ∈ m) : look m k = some v := by
  induction m with
  | nil => simp at h
  | cons e m ih =>
    rcases e with ⟨a, b⟩
    rcases List.nodup_cons.mp hm with ⟨hnotin, hnd⟩
    rw [look_cons]
    rcases List.mem_cons.mp h with h1 | h1
    · cases h1
      simp
    · have ha : a ≠ k := by
        intro hak
        subst hak
        exact hnotin (List.mem_map.mpr ⟨(a, v), h1, rfl⟩)
      rw [if_neg (by simpa using ha)]
      exact ih hnd h1

theorem look_eq_none_of_not_memkey (m : JMap κ ν) (k : κ)
    (h : k ∉ keys m) : look m k = none := by
  induction m with
  | nil => rfl
  | cons e m ih =>
    rw [look_cons, if_neg]
    · exact ih (fun hk => h (List.mem_cons_of_mem _ hk))
    · intro he
      exact h (by simp [keys, he])

theorem memkey_of_look (m : JMap κ ν) (k : κ) (h : (look m k).isSome) :
    k ∈ keys m := by
  by_contra hk
  rw [look_eq_none_of_not_memkey m k hk] at h
  simp at h

theorem filter_eq_self_of_not_memkey (m : JMap κ ν) (k : κ) (h : k ∉ keys m) :
    m.filter (fun e => decide (e.1 ≠ k)) = m := by
  induction m with
  | nil => rfl
  | cons e m ih =>
    have he : e.1 ≠ k := by
      intro hek
      exact h (by simp [keys, hek])
    rw [List.filter_cons, if_pos (by simpa using he),
      ih (fun hk => h (List.mem_cons_of_mem _ hk))]

theorem nodupKeys_filter (m : JMap κ ν) (p : κ × ν → Bool)
    (hm : NodupKeys m) : NodupKeys (m.filter p) := by
  unfold NodupKeys keys at hm ⊢
  exact List.Sublist.nodup ((List.filter_sublist m).map Prod.fst) hm

theorem nodupKeys_remove (m : JMap κ ν) (k : κ) (hm : NodupKeys m) :
    NodupKeys (remove m k) := nodupKeys_filter m _ hm

theorem keys_filter_sub (m : JMap κ ν) (p : κ × ν → Bool) (k : κ)
    (h : k ∈ keys (m.filter p)) : k ∈ keys m := by
  rcases List.mem_map.mp h with ⟨e, he, rfl⟩
  exact List.mem_map.mpr ⟨e, (List.mem_filter.mp he).1, rfl⟩

theorem nodupKeys_store (m : JMap κ ν) (k : κ) (v : ν) (hm : NodupKeys m) :
    NodupKeys (store m k v) := by
  unfold store NodupKeys
  rw [keys, List.map_cons]
  refine List.nodup_cons.mpr ⟨?_, nodupKeys_filter m _ hm⟩
  intro hk
  rcases List.mem_map.mp hk with ⟨e, he, hek⟩
  have := (List.mem_filter.mp he).2
  simp [hek] at this

theorem size_store_of_fresh (m : JMap κ ν) (k : κ) (v : ν)
    (h : look m k = none) : size (store m k v) = size m + 1 := by
  have hk : k ∉ keys m := by
    intro hk
    have := memkey_of_look m k
    rcases hmem : look m k with _ | v'
    · rcases List.mem_map.mp hk with ⟨e, he, hek⟩
      have := look_isSome_of_mem m k e.2 (by
        have : e = (k, e.2) := by
          rcases e with ⟨a, b⟩; simp at hek; simp [hek]
        exact this ▸ he)
      rw [hmem] at this
      simp at this
    · rw [hmem] at h; cases h
  unfold store size
  rw [filter_eq_self_of_not_memkey m k hk]
  simp [Nat.add_comm]

theorem size_remove_of_mem (m : JMap κ ν) (k : κ) (v : ν) (hm : NodupKeys m)
    (h : look m k = some v) : size (remove m k) + 1 = size m := by
  induction m with
  | nil => simp [look] at h
  | cons e m ih =>
    rcases e with ⟨a, b⟩
    rcases List.nodup_cons.mp hm with ⟨hnotin, hnd⟩
    rw [look_cons] at h
    by_cases ha : a = k
    · subst ha
      unfold remove
      rw [List.filter_cons, if_neg (by simp),
        filter_eq_self_of_not_memkey m a hnotin]
      rfl
    · rw [if_neg (by simpa using ha)] at h
      unfold remove at ih ⊢
      rw [List.filter_cons, if_pos (by simpa using ha)]
      have := ih hnd h
      unfold size at this ⊢
      simpa using this

/-- Sum of a numeric projection over the values of a map. -/
def sumBy (m : JMap κ ν) (f : ν → Nat) : Nat := (m.map (fun e => f e.2)).sum

@[simp] theorem sumBy_nil (f : ν → Nat) : sumBy ([] : JMap κ ν) f = 0 := rfl

theorem sumBy_eq_zero (m : JMap κ ν) (f : ν → Nat)
    (h : ∀ e ∈ m, f e.2 = 0) : sumBy m f = 0 := by
  induction m with
  | nil => rfl
  | cons e m ih =>
    unfold sumBy at ih ⊢
    rw [List.map_cons, List.sum_cons, h e (List.mem_cons_self _ _),
      ih (fun e' he' => h e' (List.mem_cons_of_mem _ he'))]

theorem sumBy_remove_of_mem (m : JMap κ ν) (k : κ) (c : ν) (f : ν → Nat)
    (hm : NodupKeys m) (h : look m k = some c) :
    sumBy (remove m k) f + f c = sumBy m f := by
  induction m with
  | nil => simp [look] at h
  | cons e m ih =>
    rcases e with ⟨a, b⟩
    rcases List.nodup_cons.mp hm with ⟨hnotin, hnd⟩
    rw [look_cons] at h
    by_cases ha : a = k
    · subst ha
      rw [if_pos rfl] at h
      cases h
      unfold remove
      rw [List.filter_cons, if_neg (by simp),
        filter_eq_self_of_not_memkey m a hnotin]
      unfold sumBy
      rw [List.map_cons, List.sum_cons]
      exact Nat.add_comm _ _
    · rw [if_neg (by simpa using ha)] at h
      unfold remove at ih ⊢
      rw [List.filter_cons, if_pos (by simpa using ha)]
      unfold sumBy at ih ⊢
      rw [List.map_cons, List.sum_cons, List.map_cons, List.sum_cons,
        Nat.add_assoc, ih hnd h]

theorem sumBy_store_of_mem (m : JMap κ ν) (k : κ) (c c' : ν) (f : ν → Nat)
    (hm : NodupKeys m) (h : look m k = some c) :
    sumBy (store m k c') f + f c = sumBy m f + f c' := by
  unfold store
  unfold sumBy
  rw [List.map_cons, List.sum_cons]
  have := sumBy_remove_of_mem m k c f hm h
  unfold remove sumBy at this
  rw [Nat.add_assoc, this]
  exact Nat.add_comm _ _

end JMap

/-! ## Data model

Translated from `src/services/employee-isolation-manager.js`. -/

/-- The conversation key: model of the truncated SHA-256 digest of
`employeeId-threadId-Date.now()` (`generateConversationKey`); the hash is
assumed collision-free, so the key is represented by its components. -/
structure ConversationKey where
  employeeId : String
  threadId : String
  timestamp : Nat
deriving DecidableEq, Repr

/-- The correlation key: model of the truncated SHA-256 digest of
`employeeId-threadId-runId-toolCallId-Date.now()` (`generateCorrelationKey`);
the hash is assumed collision-free. -/
structure CorrelationKey where
  employeeId : String
  threadId : String
  runId : String
  toolCallId : String
  timestamp : Nat
deriving DecidableEq, Repr

/-- The per-thread record stored in `context.conversationHistory` and — with
the additional `ownerEmployee` binding — in the global thread map
(`createConversationThread`).  Status strings are taken verbatim from the
source (`active`). -/
structure ThreadData where
  threadId : String
  employeeId : String
  employeeName : String
  isolationKey : String
  conversationKey : ConversationKey
  createdAt : Nat
  lastActivity : Nat
  messageCount : Nat
  toolCallCount : Nat
  status : String
deriving DecidableEq, Repr

/-- Entry of the global `conversationThreads` map: the spread copy of the
thread data plus the immutable-by-intent `ownerEmployee` binding. -/
structure OwnedThreadData where
  data : ThreadData
  ownerEmployee : String
deriving DecidableEq, Repr

/-- The pending tool-call record built by `registerToolCall`. -/
structure ToolCallData where
  toolCallId : String
  threadId : String
  runId : String
  employeeId : String
  employeeName : String
  functionName : String
  arguments : String
  correlationKey : CorrelationKey
  isolationKey : String
  conversationKey : ConversationKey
  registeredAt : Nat
  status : String
  webhookUrl : String
  retryCount : Nat
deriving DecidableEq, Repr

/-- Entry of the `correlationKeys` map (`registerToolCall` lines 182-187). -/
structure CorrelationMapping where
  toolCallId : String
  employeeId : String
  threadId : String
  runId : String
deriving DecidableEq, Repr

/-- The per-employee isolated context (`initializeEmployeeContexts`). -/
structure EmployeeContext where
  employeeId : String
  name : String
  role : String
  specialty : String
  assistantId : String
  webhookUrl : String
  activeThreads : List String
  pendingCalls : JMap String ToolCallData
  conversationHistory : JMap String ThreadData
  isolationKey : String
  lastActivity : Option Nat
  totalOperations : Nat
  successfulOperations : Nat
  failedOperations : Nat
deriving DecidableEq, Repr

/-- The mutable state of an `EmployeeIsolationManager` instance. -/
structure IsolationState where
  employeeContexts : JMap String EmployeeContext
  conversationThreads : JMap String OwnedThreadData
  pendingOperations : JMap String ToolCallData
  correlationKeys : JMap CorrelationKey CorrelationMapping
deriving DecidableEq, Repr

/-- The isolation manager's thrown errors, one constructor per distinct
`throw new Error(...)` site. -/
inductive IsoError where
  /-- Source message `Employee X not found in isolation manager` / `Employee X not found`. -/
  | employeeNotFound (employeeId : String)
  /-- Source message `Thread X not found in isolation manager`. -/
  | threadNotFound (threadId : String)
  /-- Source message `CRITICAL ISOLATION VIOLATION: Thread T belongs to A, not B`. -/
  | isolationViolation (threadId owner presented : String)
  /-- Source message `Thread T not found in E active threads`. -/
  | threadNotActive (threadId employeeId : String)
  /-- Model of the TypeError hit when `employeeContexts.get` yields no
  context (`ISOLATION ERROR: Employee context not found`). -/
  | contextNotFound (employeeId : String)
  /-- Source message `ISOLATION ERROR: No pending operation found for tool call C`. -/
  | unknownToolCall (toolCallId : String)
  /-- Source message `CRITICAL THREAD MISMATCH: Expected X, got Y`. -/
  | threadMismatch (expected got : String)
  /-- Source message `CRITICAL RUN MISMATCH: Expected X, got Y`. -/
  | runMismatch (expected got : String)
  /-- Source message `CRITICAL CORRELATION VIOLATION: Invalid correlation key`. -/
  | correlationViolation (toolCallId : String)
deriving DecidableEq, Repr

/-- JS `Set.add`: append the element unless already present. -/
def setAdd (s : List String) (x : String) : List String :=
  if x ∈ s then s else s ++ [x]

/-- JS `Set.delete`: drop the element. -/
def setDel (s : List String) (x : String) : List String :=
  s.filter (fun y => decide (y ≠ x))

/-! ## Isolation manager operations -/

/-- Model of `generateConversationKey(employeeId, threadId)` (lines 116-121). -/
def generateConversationKey (employeeId threadId : String) (now : Nat) :
    ConversationKey := ⟨employeeId, threadId, now⟩

/-- Model of `generateCorrelationKey(employeeId, threadId, runId, toolCallId)`
(lines 209-215). -/
def generateCorrelationKey (employeeId threadId runId toolCallId : String)
    (now : Nat) : CorrelationKey :=
  ⟨employeeId, threadId, runId, toolCallId, now⟩

/-- Model of `createConversationThread(employeeId, threadId)` (lines 73-111): builds
the thread record, adds it to the employee's active set and history, and
stores the spread copy with `ownerEmployee` in the global map — overwriting
any existing binding of `threadId`. -/
def createConversationThread (st : IsolationState)
    (employeeId threadId : String) (now : Nat) :
    Except IsoError (ThreadData × IsolationState) :=
  match JMap.look st.employeeContexts employeeId with
  | none => .error (.employeeNotFound employeeId)
  | some ctx =>
    let conversationKey := generateConversationKey employeeId threadId now
    let threadData : ThreadData :=
      { threadId := threadId, employeeId := employeeId,
        employeeName := ctx.name, isolationKey := ctx.isolationKey,
        conversationKey := conversationKey, createdAt := now,
        lastActivity := now, messageCount := 0, toolCallCount := 0,
        status := "active" }
    let ctx' := { ctx with
      activeThreads := setAdd ctx.activeThreads threadId,
      conversationHistory := JMap.store ctx.conversationHistory threadId threadData }
    .ok (threadData,
      { st with
        employeeContexts := JMap.store st.employeeContexts employeeId ctx',
        conversationThreads := JMap.store st.conversationThreads threadId
          ⟨threadData, employeeId⟩ })

/-- Model of `validateThreadOwnership(threadId, employeeId)` (lines 126-144): thread
must exist, its recorded owner must be `employeeId`, and the thread must sit
in that employee's active set.  Read-only. -/
def validateThreadOwnership (st : IsolationState)
    (threadId employeeId : String) : Except IsoError OwnedThreadData :=
  match JMap.look st.conversationThreads threadId with
  | none => .error (.threadNotFound threadId)
  | some td =>
    if td.ownerEmployee ≠ employeeId then
      .error (.isolationViolation threadId td.ownerEmployee employeeId)
    else
      match JMap.look st.employeeContexts employeeId with
      | none => .error (.contextNotFound employeeId)
      | some ctx =>
        if threadId ∈ ctx.activeThreads then .ok td
        else .error (.threadNotActive threadId employeeId)

/-- Model of `registerToolCall(toolCallId, threadId, runId, employeeId, functionName,
arguments)` (lines 149-204).  Validates ownership, generates the correlation
key, stores the pending record in the employee context and the two global
maps, and bumps the thread and context activity counters (the thread bump
lands on the global map entry, which is the object `validateThreadOwnership`
returned). -/
def registerToolCall (st : IsolationState)
    (toolCallId threadId runId employeeId functionName arguments : String)
    (now : Nat) : Except IsoError (ToolCallData × IsolationState) :=
  match validateThreadOwnership st threadId employeeId with
  | .error e => .error e
  | .ok td =>
    match JMap.look st.employeeContexts employeeId with
    | none => .error (.contextNotFound employeeId)
    | some ctx =>
      let correlationKey :=
        generateCorrelationKey employeeId threadId runId toolCallId now
      let toolCallData : ToolCallData :=
        { toolCallId := toolCallId, threadId := threadId, runId := runId,
          employeeId := employeeId, employeeName := ctx.name,
          functionName := functionName, arguments := arguments,
          correlationKey := correlationKey, isolationKey := ctx.isolationKey,
          conversationKey := td.data.conversationKey, registeredAt := now,
          status := "pending", webhookUrl := ctx.webhookUrl, retryCount := 0 }
      let ctx' := { ctx with
        pendingCalls := JMap.store ctx.pendingCalls toolCallId toolCallData,
        lastActivity := some now,
        totalOperations := ctx.totalOperations + 1 }
      let td' := { td with data := { td.data with
        lastActivity := now, toolCallCount := td.data.toolCallCount + 1 } }
      .ok (toolCallData,
        { st with
          employeeContexts := JMap.store st.employeeContexts employeeId ctx',
          conversationThreads := JMap.store st.conversationThreads threadId td',
          pendingOperations :=
            JMap.store st.pendingOperations toolCallId toolCallData,
          correlationKeys := JMap.store st.correlationKeys correlationKey
            ⟨toolCallId, employeeId, threadId, runId⟩ })

/-- The response envelope returned by a successful
`processWebhookResponse`. -/
structure ProcessedResponse where
  toolCallId : String
  output : String
  threadId : String
  runId : String
  employeeId : String
  employeeName : String
  correlationKey : CorrelationKey
  isolationKey : String
  conversationKey : ConversationKey
  processedAt : Nat
  validationPassed : Bool
deriving DecidableEq, Repr

/-- Model of `processWebhookResponse(toolCallId, output, threadId, runId)`
(lines 220-305): look up the pending record, check thread id, run id,
employee context, thread ownership and the correlation-key mapping, then —
only after every check passed — delete the record from the employee context,
the global pending map and the correlation index, bump the success counter
and the history entry's activity, and return the envelope.  Every `throw`
precedes the first mutation, so the error cases return no state. -/
def processWebhookResponse (st : IsolationState)
    (toolCallId output threadId runId : String) (now : Nat) :
    Except IsoError (ProcessedResponse × IsolationState) :=
  match JMap.look st.pendingOperations toolCallId with
  | none => .error (.unknownToolCall toolCallId)
  | some op =>
    if op.threadId ≠ threadId then
      .error (.threadMismatch op.threadId threadId)
    else if op.runId ≠ runId then
      .error (.runMismatch op.runId runId)
    else
      match JMap.look st.employeeContexts op.employeeId with
      | none => .error (.contextNotFound op.employeeId)
      | some ctx =>
        match validateThreadOwnership st threadId op.employeeId with
        | .error e => .error e
        | .ok _ =>
          match JMap.look st.correlationKeys op.correlationKey with
          | none => .error (.correlationViolation toolCallId)
          | some mapping =>
            if mapping.toolCallId ≠ toolCallId ∨
                mapping.employeeId ≠ op.employeeId ∨
                mapping.threadId ≠ threadId ∨
                mapping.runId ≠ runId then
              .error (.correlationViolation toolCallId)
            else
              let response : ProcessedResponse :=
                { toolCallId := toolCallId, output := output,
                  threadId := threadId, runId := runId,
                  employeeId := op.employeeId, employeeName := ctx.name,
                  correlationKey := op.correlationKey,
                  isolationKey := ctx.isolationKey,
                  conversationKey := op.conversationKey,
                  processedAt := now, validationPassed := true }
              let history' :=
                match JMap.look ctx.conversationHistory threadId with
                | some thd => JMap.store ctx.conversationHistory threadId
                    { thd with lastActivity := now }
                | none => ctx.conversationHistory
              let ctx' := { ctx with
                pendingCalls := JMap.remove ctx.pendingCalls toolCallId,
                successfulOperations := ctx.successfulOperations + 1,
                lastActivity := some now,
                conversationHistory := history' }
              .ok (response,
                { st with
                  employeeContexts :=
                    JMap.store st.employeeContexts op.employeeId ctx',
                  pendingOperations :=
                    JMap.remove st.pendingOperations toolCallId,
                  correlationKeys :=
                    JMap.remove st.correlationKeys op.correlationKey })

/-- Model of `getEmployeePendingOperations(employeeId).length` as used by the /ask
busy guard: number of pending calls recorded for the employee, 0 when the
employee is unknown (lines 310-320). -/
def employeePendingCount (st : IsolationState) (employeeId : String) : Nat :=
  match JMap.look st.employeeContexts employeeId with
  | none => 0
  | some ctx => ctx.pendingCalls.size

/-- The removal condition for a pending operation in `cleanupOldOperations`
(line 409), exactly as the source computes it: the *age*
`Date.now() - registeredAt` is compared against the *timestamp*
`oneHourAgo = Date.now() - 3600000`. -/
def opCleanupCondition (now : Nat) (op : ToolCallData) : Bool :=
  ((now : Int) - (op.registeredAt : Int)) > ((now : Int) - 3600000)

/-- The removal condition for a thread in `cleanupOldOperations` (line 430):
the age `Date.now() - lastActivity` is compared against the timestamp
`oneDayAgo = Date.now() - 86400000`. -/
def threadCleanupCondition (now : Nat) (td : OwnedThreadData) : Bool :=
  ((now : Int) - (td.data.lastActivity : Int)) > ((now : Int) - 86400000)

/-- One removal step of the pending-operation sweep in
`cleanupOldOperations` (lines 406-424): drop the call from the owning
context (counting a failed operation), the global pending map and the
correlation index. -/
def removeExpiredOp (st : IsolationState) (e : String × ToolCallData) :
    IsolationState :=
  let contexts' :=
    match JMap.look st.employeeContexts e.2.employeeId with
    | some ctx => JMap.store st.employeeContexts e.2.employeeId
        { ctx with pendingCalls := JMap.remove ctx.pendingCalls e.1,
                   failedOperations := ctx.failedOperations + 1 }
    | none => st.employeeContexts
  { st with employeeContexts := contexts',
            pendingOperations := JMap.remove st.pendingOperations e.1,
            correlationKeys := JMap.remove st.correlationKeys e.2.correlationKey }

/-- One removal step of the thread sweep in `cleanupOldOperations`
(lines 427-444): drop the thread from the owner's active set and history and
from the global thread map. -/
def removeStaleThread (st : IsolationState) (e : String × OwnedThreadData) :
    IsolationState :=
  let contexts' :=
    match JMap.look st.employeeContexts e.2.ownerEmployee with
    | some ctx => JMap.store st.employeeContexts e.2.ownerEmployee
        { ctx with activeThreads := setDel ctx.activeThreads e.1,
                   conversationHistory := JMap.remove ctx.conversationHistory e.1 }
    | none => st.employeeContexts
  { st with employeeContexts := contexts',
            conversationThreads := JMap.remove st.conversationThreads e.1 }

/-- Model of `cleanupOldOperations()` (lines 399-451): sweep the pending operations
whose `opCleanupCondition` holds, then the threads whose
`threadCleanupCondition` holds, returning the removal counts. -/
def cleanupOldOperations (st : IsolationState) (now : Nat) :
    (Nat × Nat) × IsolationState :=
  let expiredOps := st.pendingOperations.filter (fun e => opCleanupCondition now e.2)
  let st1 := expiredOps.foldl removeExpiredOp st
  let staleThreads :=
    st1.conversationThreads.filter (fun e => threadCleanupCondition now e.2)
  let st2 := staleThreads.foldl removeStaleThread st1
  ((expiredOps.length, staleThreads.length), st2)

/-- Model of `resetEmployeeContext(employeeId)` (lines 456-491): drop every pending
call and thread of the employee from the global maps, clear the context and
rotate its isolation key (the fresh random key is the `newIsolationKey`
argument). -/
def resetEmployeeContext (st : IsolationState) (employeeId : String)
    (newIsolationKey : String) : Except IsoError (EmployeeContext × IsolationState) :=
  match JMap.look st.employeeContexts employeeId with
  | none => .error (.employeeNotFound employeeId)
  | some ctx =>
    let eOps := st.pendingOperations.filter
      (fun e => decide (e.2.employeeId = employeeId))
    let pending' := eOps.foldl (fun m e => JMap.remove m e.1) st.pendingOperations
    let keys' :=
      eOps.foldl (fun m e => JMap.remove m e.2.correlationKey) st.correlationKeys
    let threads' := st.conversationThreads.filter
      (fun e => decide (e.2.ownerEmployee ≠ employeeId))
    let ctx' := { ctx with
      activeThreads := [], pendingCalls := [], conversationHistory := [],
      isolationKey := newIsolationKey, lastActivity := none,
      totalOperations := 0, successfulOperations := 0, failedOperations := 0 }
    .ok (ctx',
      { st with
        employeeContexts := JMap.store st.employeeContexts employeeId ctx',
        conversationThreads := threads',
        pendingOperations := pending',
        correlationKeys := keys' })

/-- Sum of the per-employee pending-call counts
(`validateIsolationIntegrity` lines 501-502). -/
def employeePendingSum (st : IsolationState) : Nat :=
  JMap.sumBy st.employeeContexts (fun ctx => ctx.pendingCalls.size)

/-- The thread-ownership walk of `validateIsolationIntegrity`
(lines 515-520): every thread's recorded owner must exist and hold the
thread in its active set. -/
def threadOwnershipConsistent (st : IsolationState) : Bool :=
  st.conversationThreads.all (fun e =>
    match JMap.look st.employeeContexts e.2.ownerEmployee with
    | none => false
    | some ctx => decide (e.1 ∈ ctx.activeThreads))

/-- Model of `validateIsolationIntegrity()` (lines 496-534): healthy iff the three
consistency checks find no issue. -/
def validateIsolationIntegrity (st : IsolationState) : Bool :=
  decide (employeePendingSum st = st.pendingOperations.size) &&
  decide (st.correlationKeys.size = st.pendingOperations.size) &&
  threadOwnershipConsistent st

/-! ## Initial state

`initializeEmployeeContexts` builds one isolated context per configured
employee (`config.employees`); the random isolation key of each is part of
the specification input. -/

/-- One entry of `config.employees`, together with the random isolation key
drawn for it at startup. -/
structure EmployeeSpec where
  employeeId : String
  name : String
  role : String
  specialty : String
  assistantId : String
  webhookUrl : String
  isolationKey : String
deriving DecidableEq, Repr

/-- The fresh context built for one employee
(`initializeEmployeeContexts` lines 31-55). -/
def freshContext (spec : EmployeeSpec) : EmployeeContext :=
  { employeeId := spec.employeeId, name := spec.name, role := spec.role,
    specialty := spec.specialty, assistantId := spec.assistantId,
    webhookUrl := spec.webhookUrl, activeThreads := [], pendingCalls := [],
    conversationHistory := [], isolationKey := spec.isolationKey,
    lastActivity := none, totalOperations := 0, successfulOperations := 0,
    failedOperations := 0 }

/-- The state of a freshly constructed `EmployeeIsolationManager`. -/
def initState (specs : List EmployeeSpec) : IsolationState :=
  { employeeContexts := specs.foldl
      (fun m spec => JMap.store m spec.employeeId (freshContext spec)) [],
    conversationThreads := [], pendingOperations := [], correlationKeys := [] }

/-! ## WebhookHandler (`src/unnamed/part_001`) -/

/-- The thread-registration step of `WebhookHandler.sendToolCalls`
(lines 61-68): try `validateThreadOwnership`; on *any* error — the comment
claims "Thread not found" but the catch is indiscriminate — create the
thread under the presented employee. -/
def ensureThreadRegistered (st : IsolationState)
    (threadId employeeId : String) (now : Nat) :
    Except IsoError IsolationState :=
  match validateThreadOwnership st threadId employeeId with
  | .ok _ => .ok st
  | .error _ =>
    match createConversationThread st employeeId threadId now with
    | .ok (_, st') => .ok st'
    | .error e => .error e

/-- Outcome of one `axios.post` attempt, as visible to
`sendWebhookWithRetry`: an HTTP response (any status) or a network-level
failure with its error message. -/
inductive AttemptOutcome where
  | response (status : Nat) (statusText : String)
  | networkError (message : String)
deriving DecidableEq, Repr

/-- Anchor test for `hasSubstr needle haystack`. -/
def startsWithChars : List Char → List Char → Bool
  | [], _ => true
  | _ :: _, [] => false
  | a :: as, b :: bs => a = b && startsWithChars as bs

/-- JS `String.includes`: does `needle` occur inside `haystack`? -/
def hasSubstr (needle : List Char) : List Char → Bool
  | [] => startsWithChars needle []
  | c :: rest => startsWithChars needle (c :: rest) || hasSubstr needle rest

/-- Model of `error.message.includes('404')` (line 224). -/
def contains404 (s : String) : Bool := hasSubstr "404".toList s.toList

/-- The extra diagnosis appended for a 404 response (lines 192-198),
abbreviated to its lead line; its exact text plays no role beyond
containing `404`-free characters. -/
def webhookNotActiveDiagnosis : String :=
  " WEBHOOK NOT ACTIVE: the workflow is not running"

/-- The error message raised for one failed attempt: for a 4xx response the
handler's own `Webhook returned <status>: <statusText>` (line 190, plus the
404 diagnosis), for a 5xx the axios rejection text (`validateStatus` accepts
only `< 500`), and the raw message for a network failure.  `none` means the
attempt succeeded (status below 400). -/
def attemptErrorMessage : AttemptOutcome → Option String
  | .response status statusText =>
    if status ≥ 500 then
      some ("Request failed with status code " ++ toString status)
    else if status ≥ 400 then
      some ("Webhook returned " ++ toString status ++ ": " ++ statusText ++
        (if status = 404 then webhookNotActiveDiagnosis else ""))
    else none
  | .networkError message => some message

/-- Backoff before retrying after failed attempt number `attempt`
(line 225): `min(retryDelay * 2^(attempt-1), maxRetryDelay)` with
`retryDelay = 2000`, `maxRetryDelay = 8000`. -/
def retryDelayFor (attempt : Nat) : Nat :=
  min (2000 * 2 ^ (attempt - 1)) 8000

/-- Final outcome of a dispatch. -/
inductive WebhookResult where
  /-- Returned object with `status: 'sent'` (lines 209-219). -/
  | sent (attempt : Nat) (status : Nat)
  /-- The final `throw` after the last attempt (line 232). -/
  | failed (message : String)
deriving DecidableEq, Repr

/-- Model of `sendWebhookWithRetry(payload, url, employeeId, attempt)`
(lines 150-235), driven by the per-attempt outcomes `outcomes attempt`.
Returns the result, the number of POST attempts performed, and the list of
inter-attempt delays.  A failed attempt is retried exactly when
`attempt < maxAttempts` and the error message does not contain `'404'`. -/
def sendWebhookFrom (outcomes : Nat → AttemptOutcome) (maxAttempts : Nat)
    (attempt : Nat) : WebhookResult × Nat × List Nat :=
  match attemptErrorMessage (outcomes attempt) with
  | none =>
    (.sent attempt (match outcomes attempt with
      | .response s _ => s
      | .networkError _ => 0), 1, [])
  | some msg =>
    if h : attempt < maxAttempts ∧ contains404 msg = false then
      let rest := sendWebhookFrom outcomes maxAttempts (attempt + 1)
      (rest.1, rest.2.1 + 1, retryDelayFor attempt :: rest.2.2)
    else
      (.failed msg, 1, [])
termination_by maxAttempts - attempt
decreasing_by
  exact Nat.sub_lt_sub_left h.1 (Nat.lt_succ_self attempt)

/-- The `sendWebhookWithRetry` entry point: `attempt = 1`,
`maxAttempts = this.retryAttempts = 3` (constructor line 8). -/
def sendWebhookWithRetry (outcomes : Nat → AttemptOutcome) :
    WebhookResult × Nat × List Nat :=
  sendWebhookFrom outcomes 3 1

/-- A JavaScript value at the inbound webhook-response interface. -/
inductive JsValue where
  | undef
  | nullv
  | str (s : String)
  | num (n : Int)
  | boolean (b : Bool)
deriving DecidableEq, Repr

/-- JS truthiness: `undefined`, `null`, `''`, `0` and `false` are falsy. -/
def JsValue.truthy : JsValue → Bool
  | .undef => false
  | .nullv => false
  | .str s => decide (s ≠ "")
  | .num n => decide (n ≠ 0)
  | .boolean b => b

/-- The string a JS value contributes when used as a map key / argument. -/
def JsValue.asString : JsValue → String
  | .undef => "undefined"
  | .nullv => "null"
  | .str s => s
  | .num n => toString n
  | .boolean b => toString b

/-- The inbound webhook-response body `{tool_call_id, output, thread_id,
run_id}`. -/
structure WebhookResponsePayload where
  tool_call_id : JsValue
  output : JsValue
  thread_id : JsValue
  run_id : JsValue
deriving DecidableEq, Repr

/-- Errors of `WebhookHandler.processWebhookResponse`. -/
inductive HandlerError where
  /-- Source message `Missing required fields: tool_call_id, output, thread_id, run_id`. -/
  | missingRequiredFields
  /-- An error propagated from the isolation manager. -/
  | iso (e : IsoError)
deriving DecidableEq, Repr

/-- Model of `WebhookHandler.processWebhookResponse(responseData)` (lines 240-284):
reject the payload when any required field is falsy, *before* any isolation
lookup; otherwise delegate to the isolation manager. -/
def handlerProcessWebhookResponse (st : IsolationState)
    (p : WebhookResponsePayload) (now : Nat) :
    Except HandlerError (ProcessedResponse × IsolationState) :=
  if p.tool_call_id.truthy && p.output.truthy &&
      p.thread_id.truthy && p.run_id.truthy then
    match processWebhookResponse st p.tool_call_id.asString p.output.asString
        p.thread_id.asString p.run_id.asString now with
    | .error e => .error (.iso e)
    | .ok r => .ok r
  else
    .error .missingRequiredFields

/-! ## Run polling (`src/services/openai-client.js`, `pollRunStatus`) -/

/-- The remote run states of the provider's state machine. -/
inductive RunStatusJs where
  | queued
  | in_progress
  | requires_action
  | completed
  | failed
  | cancelled
  | expired
  | cancelling
  /-- Any status string the switch does not know (default branch). -/
  | unknownStatus
deriving DecidableEq, Repr

/-- Model of `run.required_action?.type`. -/
inductive RequiredActionType where
  | submit_tool_outputs
  | otherAction
deriving DecidableEq, Repr

/-- One tool call extracted from
`run.required_action.submit_tool_outputs.tool_calls`. -/
structure ToolCallJs where
  id : String
  functionName : String
  arguments : String
deriving DecidableEq, Repr

/-- A snapshot of the remote run as returned by one
`runs.retrieve` fetch. -/
structure RunSnapshot where
  status : RunStatusJs
  requiredActionType : Option RequiredActionType
  toolCalls : List ToolCallJs
  lastErrorMessage : Option String
deriving DecidableEq, Repr

/-- The error results of `pollRunStatus`. -/
inductive PollError where
  /-- Source message `Assistant run failed: <message>`. -/
  | runFailed (message : Option String)
  /-- Source message `Assistant run was cancelled`. -/
  | runCancelled
  /-- Source message `Assistant run expired`. -/
  | runExpired
  /-- Source message `Assistant run polling timeout after <maxAttempts> attempts`. -/
  | pollingTimeout (maxAttempts : Nat)
deriving DecidableEq, Repr

/-- The success results of `pollRunStatus`. -/
inductive PollOk where
  | completed (run : RunSnapshot)
  | requiresAction (run : RunSnapshot) (toolCalls : List ToolCallJs)
deriving DecidableEq, Repr

/-- Model of `pollRunStatus(threadId, runId, maxAttempts, intervalMs)` (lines 79-138)
from loop counter `attempts`, driven by the fetched snapshots
`fetch attempts` (0-based).  Also returns the number of fetches performed.
`completed` and `requires_action`-with-tool-outputs return; `failed`,
`cancelled` and `expired` raise; every other status polls on; exhaustion
raises the polling timeout. -/
def pollFrom (fetch : Nat → RunSnapshot) (maxAttempts attempts : Nat) :
    Except PollError PollOk × Nat :=
  if h : attempts < maxAttempts then
    let run := fetch attempts
    match run.status with
    | .completed => (.ok (.completed run), 1)
    | .requires_action =>
      if run.requiredActionType = some .submit_tool_outputs then
        (.ok (.requiresAction run run.toolCalls), 1)
      else
        let rest := pollFrom fetch maxAttempts (attempts + 1)
        (rest.1, rest.2 + 1)
    | .failed => (.error (.runFailed run.lastErrorMessage), 1)
    | .cancelled => (.error .runCancelled, 1)
    | .expired => (.error .runExpired, 1)
    | _ =>
      let rest := pollFrom fetch maxAttempts (attempts + 1)
      (rest.1, rest.2 + 1)
  else
    (.error (.pollingTimeout maxAttempts), 0)
termination_by maxAttempts - attempts
decreasing_by
  all_goals exact Nat.sub_lt_sub_left h (Nat.lt_succ_self attempts)

/-- The `pollRunStatus` entry point (`attempts = 0`). -/
def pollRunStatus (fetch : Nat → RunSnapshot) (maxAttempts : Nat) :
    Except PollError PollOk × Nat :=
  pollFrom fetch maxAttempts 0

/-! ## POST /ask run-busy guard (`src/routes/storage.js`, lines 585-651) -/

/-- The latest run of the existing thread, as returned by
`runs.list(threadId, {limit: 1})`. -/
structure LatestRun where
  id : String
  status : RunStatusJs
deriving DecidableEq, Repr

/-- What the /ask handler decides after inspecting the latest run. -/
inductive AskDecision where
  /-- Response 409 `Thread busy with tool calls` (requires_action with recorded
  pending calls), reporting the run status. -/
  | busyToolCalls (runId : String) (pendingCount : Nat)
  /-- Response 409 `Thread busy`, reporting `current_status`. -/
  | busy (runId : String) (currentStatus : RunStatusJs)
  /-- Fall through to step 2 (`addMessage`) and step 3 (`runAssistant`). -/
  | proceed
deriving DecidableEq, Repr

/-- The run-busy guard of POST /ask for an existing thread (lines 585-626):
if the latest run's status is in `['queued', 'in_progress',
'requires_action']` then: for `requires_action`, return busy only when the
employee has recorded pending tool calls — otherwise fall through; for the
other two, return busy naming the status. -/
def askRunGuard (latestRun : Option LatestRun) (pendingCount : Nat) :
    AskDecision :=
  match latestRun with
  | none => .proceed
  | some r =>
    if r.status = .queued ∨ r.status = .in_progress ∨
        r.status = .requires_action then
      if r.status = .requires_action then
        if pendingCount > 0 then .busyToolCalls r.id pendingCount
        else .proceed
      else .busy r.id r.status
    else .proceed

/-- The actions the /ask handler performs on the thread after the guard:
`proceed` reaches `openaiService.addMessage` (step 2, line 639) and
`openaiService.runAssistant` (step 3, line 644); a busy decision returns 409
and performs neither. -/
inductive AskAction where
  | appendMessage
  | startRun
deriving DecidableEq, Repr

/-- The thread-mutating actions implied by each guard decision
(lines 637-646). -/
def askActionsAfterGuard : AskDecision → List AskAction
  | .proceed => [.appendMessage, .startRun]
  | _ => []

/-! ## Concrete fixtures -/

/-- The `brenden` entry of `config.employees`, with a startup isolation
key. -/
def brendenSpec : EmployeeSpec :=
  { employeeId := "brenden", name := "AI Brenden", role := "lead scraper",
    specialty := "Lead Research Specialist", assistantId := "asst_b",
    webhookUrl := "https://wh/brenden", isolationKey := "isoB" }

/-- The `van` entry of `config.employees`, with a startup isolation key. -/
def vanSpec : EmployeeSpec :=
  { employeeId := "van", name := "AI Van", role := "page operator",
    specialty := "Digital Marketing Designer", assistantId := "asst_v",
    webhookUrl := "https://wh/van", isolationKey := "isoV" }

/-- A two-employee configuration. -/
def demoSpecs : List EmployeeSpec := [brendenSpec, vanSpec]

/-- Manager state right after startup. -/
def stInit : IsolationState := initState demoSpecs

/-- Success state of an isolation-manager call, or the fallback state on
error (used only to build concrete fixture states). -/
def stepOk {α : Type} (r : Except IsoError (α × IsolationState))
    (fallback : IsolationState) : IsolationState :=
  match r with
  | .ok (_, s) => s
  | .error _ => fallback

/-- Thread `th1` created for `brenden` at time 100. -/
def c1St1 : IsolationState :=
  stepOk (createConversationThread stInit "brenden" "th1" 100) stInit

/-- The state after `sendToolCalls` presents thread `th1` under `van` at
time 200 and runs its thread-registration step. -/
def c1St2 : IsolationState :=
  match ensureThreadRegistered c1St1 "th1" "van" 200 with
  | .ok s => s
  | .error _ => c1St1

/-- The recorded owner of a thread. -/
def recordedOwner (st : IsolationState) (threadId : String) : Option String :=
  (JMap.look st.conversationThreads threadId).map OwnedThreadData.ownerEmployee

/-- C1.  The claim states that a thread's recorded owner is immutable and
that no public operation — in particular `sendToolCalls` presenting the
thread under another tenant — can change it.  The code violates this:
`sendToolCalls` catches *every* `validateThreadOwnership` error (including
the isolation violation raised when the thread belongs to someone else) and
calls `createConversationThread`, which overwrites the global thread entry
with the new owner.  Evaluated at the failing input: `th1` is created for
`brenden`, then presented under `van`; the recorded owner flips to `van`,
after which ownership validation *fails* for the original owner `brenden`
and *succeeds* for `van`. -/
theorem claim1_thread_owner_overwritten :
    recordedOwner c1St1 "th1" = some "brenden" ∧
    recordedOwner c1St2 "th1" = some "van" ∧
    validateThreadOwnership c1St2 "th1" "brenden" =
      .error (.isolationViolation "th1" "van" "brenden") ∧
    (validateThreadOwnership c1St2 "th1" "van").isOk = true := by
  decide

/-- Thread `th1` created for `brenden` at epoch-millisecond
1700000000000. -/
def c8St1 : IsolationState :=
  stepOk (createConversationThread stInit "brenden" "th1" 1700000000000) stInit

/-- Tool call `tc1` registered at the same instant. -/
def c8St2 : IsolationState :=
  stepOk (registerToolCall c8St1 "tc1" "th1" "run1" "brenden" "scrape_leads"
    "{}" 1700000000000) c8St1

/-- C8.  The claim states that `cleanupOldOperations` removes exactly the
pending calls older than one hour.  The code compares the operation *age*
(`Date.now() - registeredAt`) against the *timestamp* `oneHourAgo =
Date.now() - 3600000`, so a call registered two hours ago is kept: run two
hours after registration, the sweep removes nothing and `tc1` is still
pending, even though its age 7200000 ms exceeds the 3600000 ms TTL. -/
theorem claim8_cleanup_removes_nothing :
    (JMap.look c8St2.pendingOperations "tc1").map ToolCallData.registeredAt =
      some 1700000000000 ∧
    cleanupOldOperations c8St2 1700007200000 = ((0, 0), c8St2) ∧
    (JMap.look (cleanupOldOperations c8St2 1700007200000).2.pendingOperations
      "tc1").isSome = true ∧
    opCleanupCondition 1700007200000
      { toolCallId := "tc1", threadId := "th1", runId := "run1",
        employeeId := "brenden", employeeName := "AI Brenden",
        functionName := "scrape_leads", arguments := "{}",
        correlationKey := ⟨"brenden", "th1", "run1", "tc1", 1700000000000⟩,
        isolationKey := "isoB", conversationKey := ⟨"brenden", "th1", 1700000000000⟩,
        registeredAt := 1700000000000, status := "pending",
        webhookUrl := "https://wh/brenden", retryCount := 0 } = false := by
  decide

/-- Tool call `tc1` registered on `th1` at time 200... -/
def c4St2 : IsolationState :=
  stepOk (registerToolCall c1St1 "tc1" "th1" "run1" "brenden" "scrape_leads"
    "{}" 200) c1St1

/-- State with `tc1` registered a second time one millisecond later: the pending
entry is overwritten but the first correlation key stays behind. -/
def c4St3 : IsolationState :=
  stepOk (registerToolCall c4St2 "tc1" "th1" "run1" "brenden" "scrape_leads"
    "{}" 201) c4St2

/-- C4 counterexample.  Registering the same tool-call id twice (at
different clock readings, so with different correlation keys) leaves one
pending operation but two correlation-index entries, and
`validateIsolationIntegrity` reports unhealthy — refuting the claim that
the index size equals the pending count after *every* operation sequence,
including double registrations. -/
theorem claim4_duplicate_registration_breaks_index :
    c4St3.pendingOperations.size = 1 ∧
    c4St3.correlationKeys.size = 2 ∧
    validateIsolationIntegrity c4St3 = false := by
  decide

/-- C5 counterexample.  A latest run observed in state `requires_action`
while the employee has zero recorded pending tool calls: the guard falls
through (`proceed`) and the handler appends the message and starts a second
run, instead of returning the busy signal the claim requires for every
non-terminal state. -/
theorem claim5_requires_action_zero_pending_proceeds :
    askRunGuard (some ⟨"run1", .requires_action⟩) 0 = .proceed ∧
    askActionsAfterGuard
      (askRunGuard (some ⟨"run1", .requires_action⟩) 0) =
      [.appendMessage, .startRun] := by
  decide

/-- C5, amended.  For an observed latest run in state `queued` or
`in_progress` the guard always returns the busy signal naming the current
status, and for `requires_action` it does so whenever the employee has at
least one recorded pending tool call; in every such case the handler
performs no thread mutation. -/
theorem claim5_busy_guard_amended (r : LatestRun) (pendingCount : Nat) :
    (r.status = .queued ∨ r.status = .in_progress →
      askRunGuard (some r) pendingCount = .busy r.id r.status ∧
      askActionsAfterGuard (askRunGuard (some r) pendingCount) = []) ∧
    (r.status = .requires_action → 0 < pendingCount →
      askRunGuard (some r) pendingCount = .busyToolCalls r.id pendingCount ∧
      askActionsAfterGuard (askRunGuard (some r) pendingCount) = []) := by
  constructor
  · rintro (h | h) <;> rw [askRunGuard] <;> simp [h, askActionsAfterGuard]
  · intro h hp
    rw [askRunGuard]
    simp [h, hp, askActionsAfterGuard]

/-- C5 amended, witness: a `queued` run is reported busy, and a
`requires_action` run with two recorded pending calls is reported busy with
tool calls. -/
theorem claim5_busy_guard_amended_witness :
    (askRunGuard (some ⟨"runA", .queued⟩) 5 = .busy "runA" .queued ∧
      askActionsAfterGuard (askRunGuard (some ⟨"runA", .queued⟩) 5) = []) ∧
    (askRunGuard (some ⟨"runB", .requires_action⟩) 2 =
        .busyToolCalls "runB" 2 ∧
      askActionsAfterGuard (askRunGuard (some ⟨"runB", .requires_action⟩) 2) = []) :=
  ⟨(claim5_busy_guard_amended ⟨"runA", .queued⟩ 5).1 (Or.inl rfl),
   (claim5_busy_guard_amended ⟨"runB", .requires_action⟩ 2).2 rfl (by decide)⟩

/-- C10.  If any of `tool_call_id`, `output`, `thread_id`, `run_id` is
falsy (absent, null, empty string, zero, false), the webhook-response
handler fails with the missing-required-fields error; the check runs before
any isolation-manager lookup, and since the error carries no state, no
pending tool call is consumed and the correlation state is unchanged. -/
theorem claim10_falsy_fields_rejected (st : IsolationState)
    (p : WebhookResponsePayload) (now : Nat)
    (h : p.tool_call_id.truthy = false ∨ p.output.truthy = false ∨
      p.thread_id.truthy = false ∨ p.run_id.truthy = false) :
    handlerProcessWebhookResponse st p now = .error .missingRequiredFields := by
  rw [handlerProcessWebhookResponse]
  rcases h with h | h | h | h <;> rw [h] <;> simp

/-- C10 witness: an inbound payload whose `output` is the empty string (a
falsy value) is rejected on the fixture state. -/
theorem claim10_falsy_fields_rejected_witness :
    handlerProcessWebhookResponse c4St2
      ⟨.str "tc1", .str "", .str "th1", .str "run1"⟩ 300 =
      .error .missingRequiredFields :=
  claim10_falsy_fields_rejected c4St2 ⟨.str "tc1", .str "", .str "th1", .str "run1"⟩
    300 (Or.inr (Or.inl (by decide)))

/-- C2.  A successful `processWebhookResponse` removes the pending record
and its correlation-index entry in the same synchronous step (both removals
are part of the single returned state), and any second call with the same
`toolCallId` — whatever its output, thread, run or time — fails with the
unknown-tool-call error. -/
theorem claim2_at_most_one_consumption (st : IsolationState)
    (tc out th run : String) (now : Nat) (resp : ProcessedResponse)
    (st' : IsolationState)
    (h : processWebhookResponse st tc out th run now = .ok (resp, st')) :
    JMap.look st'.pendingOperations tc = none ∧
    (∀ op, JMap.look st.pendingOperations tc = some op →
      JMap.look st'.correlationKeys op.correlationKey = none) ∧
    (∀ out2 th2 run2 now2,
      processWebhookResponse st' tc out2 th2 run2 now2 =
        .error (.unknownToolCall tc)) := by
  unfold processWebhookResponse at h
  split at h
  · exact Except.noConfusion h
  rename_i op hop
  split at h
  · exact Except.noConfusion h
  split at h
  · exact Except.noConfusion h
  split at h
  · exact Except.noConfusion h
  rename_i ctx hctx
  split at h
  · exact Except.noConfusion h
  split at h
  · exact Except.noConfusion h
  rename_i mapping hmapping
  split at h
  · exact Except.noConfusion h
  cases h
  have hpendgone : JMap.look
      (JMap.remove st.pendingOperations tc) tc = none :=
    JMap.look_remove_self st.pendingOperations tc
  refine ⟨hpendgone, ?_, ?_⟩
  · intro op' hop'
    have hEq : op = op' := Option.some.inj (hop.symm.trans hop')
    rw [← hEq]
    exact JMap.look_remove_self st.correlationKeys op.correlationKey
  · intro out2 th2 run2 now2
    unfold processWebhookResponse
    split
    · rfl
    · rename_i op2 hop2
      exact Option.noConfusion (hpendgone.symm.trans hop2)

/-- The pending record registered for the C2/C3 witnesses: tool call `tc1`
on thread `th1`, run `run1`, tenant `brenden`, registered at time 200. -/
def demoOpTc1 : ToolCallData :=
  { toolCallId := "tc1", threadId := "th1", runId := "run1",
    employeeId := "brenden", employeeName := "AI Brenden",
    functionName := "scrape_leads", arguments := "{}",
    correlationKey := ⟨"brenden", "th1", "run1", "tc1", 200⟩,
    isolationKey := "isoB", conversationKey := ⟨"brenden", "th1", 100⟩,
    registeredAt := 200, status := "pending",
    webhookUrl := "https://wh/brenden", retryCount := 0 }

/-- The C2 witness call on the fixture state. -/
def c2Call : Except IsoError (ProcessedResponse × IsolationState) :=
  processWebhookResponse c4St2 "tc1" "res" "th1" "run1" 300

/-- The response envelope of the C2 witness call. -/
def c2Resp : ProcessedResponse :=
  match c2Call with
  | .ok (r, _) => r
  | .error _ =>
    { toolCallId := "", output := "", threadId := "", runId := "",
      employeeId := "", employeeName := "",
      correlationKey := ⟨"", "", "", "", 0⟩, isolationKey := "",
      conversationKey := ⟨"", "", 0⟩, processedAt := 0,
      validationPassed := false }

/-- The state left by the C2 witness call. -/
def c2StAfter : IsolationState := stepOk c2Call c4St2

/-- C2 witness: consuming `tc1` on the fixture state removes the pending
record and its correlation entry, and an immediate second call fails with
the unknown-tool-call error. -/
theorem claim2_at_most_one_consumption_witness :
    JMap.look c2StAfter.pendingOperations "tc1" = none ∧
    JMap.look c2StAfter.correlationKeys demoOpTc1.correlationKey = none ∧
    processWebhookResponse c2StAfter "tc1" "res" "th1" "run1" 400 =
      .error (.unknownToolCall "tc1") := by
  have h := claim2_at_most_one_consumption c4St2 "tc1" "res" "th1" "run1" 300
    c2Resp c2StAfter (by decide)
  exact ⟨h.1, h.2.1 demoOpTc1 (by decide), h.2.2 "res" "th1" "run1" 400⟩

/-- C3.  For a registered pending record (in a state whose bookkeeping for
that record is intact): a call with a wrong thread id fails with the
thread-mismatch error; a call with the right thread but a wrong run id
fails with the run-mismatch error; and — because every check precedes the
first mutation, so a thrown error leaves all state untouched — the very
same state still accepts the corrected call, which succeeds. -/
theorem claim3_mismatch_rejection (st : IsolationState) (tc out : String)
    (now : Nat) (op : ToolCallData)
    (hpend : JMap.look st.pendingOperations tc = some op)
    (hctx : (JMap.look st.employeeContexts op.employeeId).isSome = true)
    (hown : (validateThreadOwnership st op.threadId op.employeeId).isOk = true)
    (hkey : JMap.look st.correlationKeys op.correlationKey =
      some ⟨tc, op.employeeId, op.threadId, op.runId⟩) :
    (∀ th run, th ≠ op.threadId →
      processWebhookResponse st tc out th run now =
        .error (.threadMismatch op.threadId th)) ∧
    (∀ run, run ≠ op.runId →
      processWebhookResponse st tc out op.threadId run now =
        .error (.runMismatch op.runId run)) ∧
    (processWebhookResponse st tc out op.threadId op.runId now).isOk = true := by
  refine ⟨?_, ?_, ?_⟩
  · intro th run hth
    unfold processWebhookResponse
    split
    · rename_i heq
      exact Option.noConfusion (hpend.symm.trans heq)
    · rename_i op' hop'
      have hEq : op = op' := Option.some.inj (hpend.symm.trans hop')
      rw [← hEq, if_pos (Ne.symm hth)]
  · intro run hrun
    unfold processWebhookResponse
    split
    · rename_i heq
      exact Option.noConfusion (hpend.symm.trans heq)
    · rename_i op' hop'
      have hEq : op = op' := Option.some.inj (hpend.symm.trans hop')
      rw [← hEq, if_neg (by simp), if_pos (Ne.symm hrun)]
  · unfold processWebhookResponse
    split
    · rename_i heq
      exact Option.noConfusion (hpend.symm.trans heq)
    · rename_i op' hop'
      have hEq : op = op' := Option.some.inj (hpend.symm.trans hop')
      rw [← hEq, if_neg (by simp), if_neg (by simp)]
      split
      · rename_i heq
        rw [heq] at hctx
        exact Bool.noConfusion hctx
      · rename_i ctx hctxeq
        split
        · rename_i e heq
          rw [heq] at hown
          exact Bool.noConfusion hown
        · rename_i td howneq
          split
          · rename_i heq
            exact Option.noConfusion (hkey.symm.trans heq)
          · rename_i mapping hmap
            have hEqM : (⟨tc, op.employeeId, op.threadId, op.runId⟩ :
                CorrelationMapping) = mapping :=
              Option.some.inj (hkey.symm.trans hmap)
            rw [← hEqM, if_neg (by simp)]
            rfl

/-- C3 witness: on the fixture state holding `tc1`, a wrong thread id is
rejected with thread-mismatch, the right thread with a wrong run id is
rejected with run-mismatch, and the corrected call still succeeds. -/
theorem claim3_mismatch_rejection_witness :
    processWebhookResponse c4St2 "tc1" "res" "thX" "run1" 300 =
      .error (.threadMismatch "th1" "thX") ∧
    processWebhookResponse c4St2 "tc1" "res" "th1" "runX" 300 =
      .error (.runMismatch "run1" "runX") ∧
    (processWebhookResponse c4St2 "tc1" "res" "th1" "run1" 300).isOk = true := by
  have h := claim3_mismatch_rejection c4St2 "tc1" "res" 300 demoOpTc1
    (by decide) (by decide) (by decide) (by decide)
  exact ⟨h.1 "thX" "run1" (by decide), h.2.1 "runX" (by decide), h.2.2⟩

/-- Appending strings appends their character lists. -/
theorem toList_append_chars (a b : String) :
    (a ++ b).toList = a.toList ++ b.toList :=
  String.data_append a b

theorem startsWithChars_append (n x r : List Char)
    (h : startsWithChars n x = true) : startsWithChars n (x ++ r) = true := by
  induction n generalizing x with
  | nil => rfl
  | cons a as ih =>
    cases x with
    | nil => exact Bool.noConfusion h
    | cons b bs =>
      rw [List.cons_append, startsWithChars]
      rw [startsWithChars, Bool.and_eq_true] at h
      rw [Bool.and_eq_true]
      exact ⟨h.1, ih bs h.2⟩

theorem hasSubstr_append_left (n l r : List Char)
    (h : hasSubstr n l = true) : hasSubstr n (l ++ r) = true := by
  induction l with
  | nil =>
    rw [hasSubstr] at h
    cases n with
    | nil =>
      cases r with
      | nil => rfl
      | cons c cs =>
        rw [List.nil_append, hasSubstr, Bool.or_eq_true]
        exact Or.inl rfl
    | cons a as => exact Bool.noConfusion h
  | cons c cs ih =>
    rw [hasSubstr, Bool.or_eq_true] at h
    rw [List.cons_append, hasSubstr, Bool.or_eq_true]
    rcases h with h | h
    · refine Or.inl ?_
      have h2 := startsWithChars_append n (c :: cs) r h
      rwa [List.cons_append] at h2
    · exact Or.inr (ih h)

/-- Containment of `404` survives appending a suffix. -/
theorem contains404_append (a b : String) (h : contains404 a = true) :
    contains404 (a ++ b) = true := by
  unfold contains404 at h ⊢
  rw [toList_append_chars]
  exact hasSubstr_append_left _ _ _ h

/-- Every `sendWebhookWithRetry` run performs at least one POST attempt. -/
theorem sendWebhookFrom_attempts_pos (outcomes : Nat → AttemptOutcome)
    (maxAttempts attempt : Nat) :
    1 ≤ (sendWebhookFrom outcomes maxAttempts attempt).2.1 := by
  rw [sendWebhookFrom]
  split
  · exact Nat.le_refl 1
  · split
    · exact Nat.le_add_left 1 _
    · exact Nat.le_refl 1

/-- C6 counterexample.  The claim says every 4xx response is terminal with
no further attempts; but a target answering 403 on every attempt is POSTed
3 times (with backoff 2000 ms then 4000 ms) — only messages containing
`404` short-circuit the retry loop. -/
theorem claim6_403_is_retried :
    sendWebhookWithRetry (fun _ => .response 403 "Forbidden") =
      (.failed "Webhook returned 403: Forbidden", 3, [2000, 4000]) ∧
    (sendWebhookWithRetry (fun _ => .response 403 "Forbidden")).2.1 ≠ 1 := by
  have hEval : sendWebhookWithRetry (fun _ => .response 403 "Forbidden") =
      (.failed "Webhook returned 403: Forbidden", 3, [2000, 4000]) := by
    simp [sendWebhookWithRetry, sendWebhookFrom, attemptErrorMessage,
      retryDelayFor, contains404, hasSubstr, startsWithChars]
    decide
  refine ⟨hEval, ?_⟩
  rw [hEval]
  decide

/-- C6, amended.  Among responses with status below 500, only those whose
error message contains `'404'` (in particular an HTTP 404 itself, whose
message embeds the status) are terminal without retry; any other 4xx
failure on the first attempt is retried — the dispatcher performs at least
a second POST. -/
theorem claim6_only_404_terminal (outcomes : Nat → AttemptOutcome) :
    (∀ statusText, outcomes 1 = .response 404 statusText →
      sendWebhookWithRetry outcomes =
        (.failed ("Webhook returned " ++ toString 404 ++ ": " ++ statusText ++
          webhookNotActiveDiagnosis), 1, [])) ∧
    (∀ msg, attemptErrorMessage (outcomes 1) = some msg →
      contains404 msg = false →
      2 ≤ (sendWebhookWithRetry outcomes).2.1) := by
  constructor
  · intro statusText hout
    have hmsg : attemptErrorMessage (outcomes 1) =
        some ("Webhook returned " ++ toString 404 ++ ": " ++ statusText ++
          webhookNotActiveDiagnosis) := by
      rw [hout]
      simp [attemptErrorMessage]
    have h404 : contains404 ("Webhook returned " ++ toString 404 ++ ": " ++
        statusText ++ webhookNotActiveDiagnosis) = true := by
      apply contains404_append
      apply contains404_append
      decide
    rw [sendWebhookWithRetry, sendWebhookFrom]
    split
    · rename_i heq
      exact Option.noConfusion (hmsg.symm.trans heq)
    · rename_i msg hmsgeq
      have hEq : msg = "Webhook returned " ++ toString 404 ++ ": " ++
          statusText ++ webhookNotActiveDiagnosis :=
        (Option.some.inj (hmsg.symm.trans hmsgeq)).symm
      rw [hEq, dif_neg]
      intro hc
      rw [h404] at hc
      exact Bool.noConfusion hc.2
  · intro msg hmsg hfree
    rw [sendWebhookWithRetry, sendWebhookFrom]
    split
    · rename_i heq
      exact Option.noConfusion (hmsg.symm.trans heq)
    · rename_i msg' hmsgeq
      have hEq : msg' = msg := Option.some.inj (hmsgeq.symm.trans hmsg)
      rw [hEq, dif_pos ⟨by decide, hfree⟩]
      exact Nat.succ_le_succ (sendWebhookFrom_attempts_pos outcomes 3 2)

/-- C6 amended, witness: a 404 on the first attempt is terminal after one
POST, and a 400 "Bad Request" first attempt leads to at least a second
POST. -/
theorem claim6_only_404_terminal_witness :
    sendWebhookWithRetry (fun _ => .response 404 "Not Found") =
      (.failed ("Webhook returned " ++ toString 404 ++ ": " ++ "Not Found" ++
        webhookNotActiveDiagnosis), 1, []) ∧
    2 ≤ (sendWebhookWithRetry (fun _ => .response 400 "Bad Request")).2.1 := by
  constructor
  · exact (claim6_only_404_terminal (fun _ => .response 404 "Not Found")).1
      "Not Found" rfl
  · refine (claim6_only_404_terminal (fun _ => .response 400 "Bad Request")).2
      "Webhook returned 400: Bad Request" ?_ (by decide)
    show attemptErrorMessage (.response 400 "Bad Request") =
      some "Webhook returned 400: Bad Request"
    decide

/-- C7.  A target whose every attempt fails with a retryable outcome (any
failure whose message does not contain `'404'`, e.g. an HTTP 503 or a
network error) is POSTed exactly `maxAttempts = 3` times, with the
strictly increasing doubling delays 2000 ms then 4000 ms (each
`min(2000·2^(attempt-1), 8000)`), and the final outcome is the terminal
failure carrying the last attempt's error. -/
theorem claim7_retry_ceiling (outcomes : Nat → AttemptOutcome)
    (h : ∀ i, ∃ msg, attemptErrorMessage (outcomes i) = some msg ∧
      contains404 msg = false) :
    ∃ finalMsg, sendWebhookWithRetry outcomes =
      (.failed finalMsg, 3, [2000, 4000]) ∧
      attemptErrorMessage (outcomes 3) = some finalMsg := by
  obtain ⟨m1, hm1, hf1⟩ := h 1
  obtain ⟨m2, hm2, hf2⟩ := h 2
  obtain ⟨m3, hm3, hf3⟩ := h 3
  have h3 : sendWebhookFrom outcomes 3 3 = (.failed m3, 1, []) := by
    rw [sendWebhookFrom]
    split
    · rename_i heq
      exact Option.noConfusion (hm3.symm.trans heq)
    · rename_i msg hmsgeq
      have hEq : msg = m3 := Option.some.inj (hmsgeq.symm.trans hm3)
      rw [hEq, dif_neg]
      intro hc
      exact absurd hc.1 (by decide)
  have h2 : sendWebhookFrom outcomes 3 2 = (.failed m3, 2, [4000]) := by
    rw [sendWebhookFrom]
    split
    · rename_i heq
      exact Option.noConfusion (hm2.symm.trans heq)
    · rename_i msg hmsgeq
      have hEq : msg = m2 := Option.some.inj (hmsgeq.symm.trans hm2)
      rw [hEq, dif_pos ⟨by decide, hf2⟩]
      show ((sendWebhookFrom outcomes 3 3).1, _, _) = _
      rw [h3]
      rfl
  refine ⟨m3, ?_, hm3⟩
  rw [sendWebhookWithRetry, sendWebhookFrom]
  split
  · rename_i heq
    exact Option.noConfusion (hm1.symm.trans heq)
  · rename_i msg hmsgeq
    have hEq : msg = m1 := Option.some.inj (hmsgeq.symm.trans hm1)
    rw [hEq, dif_pos ⟨by decide, hf1⟩]
    show ((sendWebhookFrom outcomes 3 2).1, _, _) = _
    rw [h2]
    rfl

/-- C7 witness: a target answering 503 on every attempt is POSTed exactly
3 times, with delays 2000 ms then 4000 ms, and fails terminally with the
axios 503 rejection message. -/
theorem claim7_retry_ceiling_witness :
    sendWebhookWithRetry (fun _ => .response 503 "Service Unavailable") =
      (.failed "Request failed with status code 503", 3, [2000, 4000]) := by
  have hhyp : ∀ i : Nat, ∃ msg,
      attemptErrorMessage ((fun _ => AttemptOutcome.response 503
        "Service Unavailable") i) = some msg ∧ contains404 msg = false := by
    intro i
    refine ⟨"Request failed with status code 503", ?_, by decide⟩
    show attemptErrorMessage (.response 503 "Service Unavailable") =
      some "Request failed with status code 503"
    decide
  obtain ⟨m, hm, hmsg⟩ := claim7_retry_ceiling
    (fun _ => .response 503 "Service Unavailable") hhyp
  have hmsg' : attemptErrorMessage (AttemptOutcome.response 503
      "Service Unavailable") = some m := hmsg
  have hlit : attemptErrorMessage (AttemptOutcome.response 503
      "Service Unavailable") = some "Request failed with status code 503" := by
    decide
  have hEq : m = "Request failed with status code 503" :=
    Option.some.inj (hmsg'.symm.trans hlit)
  rw [hm, hEq]

/-- Whether one fetched snapshot makes `pollRunStatus` stop at this
attempt: `completed`, `requires_action` carrying `submit_tool_outputs`,
`failed`, `cancelled` and `expired` stop; every other observation polls
on. -/
def pollDecisive (run : RunSnapshot) : Bool :=
  match run.status with
  | .completed => true
  | .requires_action =>
    decide (run.requiredActionType = some .submit_tool_outputs)
  | .failed => true
  | .cancelled => true
  | .expired => true
  | _ => false

/-- The result `pollRunStatus` produces at a decisive snapshot: return on
`completed` and on `requires_action` (with the extracted tool calls), raise
the provider's error on `failed`/`cancelled`/`expired`.  (The catch-all
value is never used at a decisive snapshot.) -/
def pollOutcomeOf (run : RunSnapshot) : Except PollError PollOk :=
  match run.status with
  | .completed => .ok (.completed run)
  | .requires_action => .ok (.requiresAction run run.toolCalls)
  | .failed => .error (.runFailed run.lastErrorMessage)
  | .cancelled => .error .runCancelled
  | .expired => .error .runExpired
  | _ => .error (.pollingTimeout 0)

theorem pollFrom_step_decisive (fetch : Nat → RunSnapshot)
    (maxAttempts attempts : Nat) (h : attempts < maxAttempts)
    (hd : pollDecisive (fetch attempts) = true) :
    pollFrom fetch maxAttempts attempts = (pollOutcomeOf (fetch attempts), 1) := by
  rw [pollFrom, dif_pos h]
  cases hst : (fetch attempts).status with
  | completed => simp [hst, pollOutcomeOf]
  | requires_action =>
    simp only [pollDecisive, hst, decide_eq_true_eq] at hd
    simp [hst, pollOutcomeOf, hd]
  | failed => simp [hst, pollOutcomeOf]
  | cancelled => simp [hst, pollOutcomeOf]
  | expired => simp [hst, pollOutcomeOf]
  | queued => simp [pollDecisive, hst] at hd
  | in_progress => simp [pollDecisive, hst] at hd
  | cancelling => simp [pollDecisive, hst] at hd
  | unknownStatus => simp [pollDecisive, hst] at hd

theorem pollFrom_step_continue (fetch : Nat → RunSnapshot)
    (maxAttempts attempts : Nat) (h : attempts < maxAttempts)
    (hd : pollDecisive (fetch attempts) = false) :
    pollFrom fetch maxAttempts attempts =
      ((pollFrom fetch maxAttempts (attempts + 1)).1,
       (pollFrom fetch maxAttempts (attempts + 1)).2 + 1) := by
  rw [pollFrom, dif_pos h]
  cases hst : (fetch attempts).status with
  | completed => simp [pollDecisive, hst] at hd
  | requires_action =>
    simp only [pollDecisive, hst, decide_eq_false_iff_not] at hd
    simp [hst, hd]
  | failed => simp [pollDecisive, hst] at hd
  | cancelled => simp [pollDecisive, hst] at hd
  | expired => simp [pollDecisive, hst] at hd
  | queued => simp [hst]
  | in_progress => simp [hst]
  | cancelling => simp [hst]
  | unknownStatus => simp [hst]

theorem pollFrom_spec (fetch : Nat → RunSnapshot) (maxAttempts : Nat) :
    ∀ remaining attempts, maxAttempts - attempts = remaining →
      (pollFrom fetch maxAttempts attempts).2 ≤ remaining ∧
      ((∀ j, attempts ≤ j → j < maxAttempts → pollDecisive (fetch j) = false) →
        pollFrom fetch maxAttempts attempts =
          (.error (.pollingTimeout maxAttempts), remaining)) ∧
      (∀ i, attempts ≤ i → i < maxAttempts → pollDecisive (fetch i) = true →
        (∀ j, attempts ≤ j → j < i → pollDecisive (fetch j) = false) →
        pollFrom fetch maxAttempts attempts =
          (pollOutcomeOf (fetch i), i + 1 - attempts)) := by
  intro remaining
  induction remaining with
  | zero =>
    intro attempts heq
    have hge : ¬ attempts < maxAttempts := by omega
    rw [pollFrom, dif_neg hge]
    refine ⟨Nat.le_refl 0, fun _ => rfl, ?_⟩
    intro i hle hlt _ _
    omega
  | succ k ih =>
    intro attempts heq
    have hlt : attempts < maxAttempts := by omega
    by_cases hd : pollDecisive (fetch attempts) = true
    · rw [pollFrom_step_decisive fetch maxAttempts attempts hlt hd]
      refine ⟨by omega, ?_, ?_⟩
      · intro hall
        exact absurd hd (by rw [hall attempts (Nat.le_refl _) hlt]; decide)
      · intro i hle hilt hdi hprior
        have hi : i = attempts := by
          by_contra hne
          have : attempts < i := by omega
          exact absurd hd
            (by rw [hprior attempts (Nat.le_refl _) this]; decide)
        subst hi
        have : i + 1 - i = 1 := by omega
        rw [this]
    · obtain ⟨ihA, ihB, ihC⟩ := ih (attempts + 1) (by omega)
      rw [pollFrom_step_continue fetch maxAttempts attempts hlt
        (by revert hd; cases pollDecisive (fetch attempts) <;> simp)]
      refine ⟨by omega, ?_, ?_⟩
      · intro hall
        rw [ihB (fun j hj1 hj2 => hall j (by omega) hj2)]
      · intro i hle hilt hdi hprior
        have hne : i ≠ attempts := by
          intro hi
          rw [hi] at hdi
          exact hd hdi
        have hle' : attempts + 1 ≤ i := by omega
        rw [ihC i hle' hilt hdi (fun j hj1 hj2 => hprior j (by omega) hj2)]
        have : i + 1 - (attempts + 1) + 1 = i + 1 - attempts := by omega
        rw [this]

/-- C9.  For every `maxAttempts ≥ 1`, `pollRunStatus` always terminates
with at most `maxAttempts` fetches (it is a total function, and the fetch
count it returns is bounded); if no fetched snapshot is decisive within the
budget it reports the polling-timeout error after exactly `maxAttempts`
fetches; and at the first decisive snapshot (index `i`) it stops after
exactly `i + 1` fetches with that snapshot's outcome — returning on
`completed`/`requires_action` (with the extracted tool calls) and raising
the provider's error on `failed`/`cancelled`/`expired`, as encoded by
`pollOutcomeOf`. -/
theorem claim9_bounded_polling (fetch : Nat → RunSnapshot) (maxAttempts : Nat)
    (hmax : 1 ≤ maxAttempts) :
    (pollRunStatus fetch maxAttempts).2 ≤ maxAttempts ∧
    ((∀ j, j < maxAttempts → pollDecisive (fetch j) = false) →
      pollRunStatus fetch maxAttempts =
        (.error (.pollingTimeout maxAttempts), maxAttempts)) ∧
    (∀ i, i < maxAttempts → pollDecisive (fetch i) = true →
      (∀ j, j < i → pollDecisive (fetch j) = false) →
      pollRunStatus fetch maxAttempts = (pollOutcomeOf (fetch i), i + 1)) := by
  obtain ⟨hA, hB, hC⟩ := pollFrom_spec fetch maxAttempts maxAttempts 0 (by omega)
  refine ⟨hA, ?_, ?_⟩
  · intro hall
    exact hB (fun j _ hj => hall j hj)
  · intro i hilt hdi hprior
    have := hC i (Nat.zero_le i) hilt hdi (fun j _ hj => hprior j hj)
    rwa [Nat.sub_zero] at this

/-- The fetch sequence of the C9 witness: two `in_progress` observations,
then `completed`. -/
def c9Fetch : Nat → RunSnapshot := fun i =>
  if i < 2 then ⟨.in_progress, none, [], none⟩
  else ⟨.completed, none, [], none⟩

/-- C9 witness: with budget 5, polling the fixture run stops after exactly
3 fetches with the completed outcome, within the bound. -/
theorem claim9_bounded_polling_witness :
    (pollRunStatus c9Fetch 5).2 ≤ 5 ∧
    pollRunStatus c9Fetch 5 =
      (.ok (.completed ⟨.completed, none, [], none⟩), 3) := by
  have h := claim9_bounded_polling c9Fetch 5 (by decide)
  refine ⟨h.1, ?_⟩
  have h3 := h.2.2 2 (by decide) (by decide)
    (fun j hj => by
      have hj2 : j = 0 ∨ j = 1 := by omega
      rcases hj2 with rfl | rfl <;> decide)
  rw [h3]
  decide

namespace JMap

variable {κ ν : Type} [DecidableEq κ]

theorem look_filter_of_sat (m : JMap κ ν) (p : κ × ν → Bool) (k : κ) (v : ν)
    (hm : NodupKeys m) (h : look m k = some v) (hp : p (k, v) = true) :
    look (m.filter p) k = some v := by
  refine look_eq_of_mem_nodup _ (nodupKeys_filter m p hm) _ _ ?_
  exact List.mem_filter.mpr ⟨mem_of_look m k v h, hp⟩

theorem look_filter_of_vio (m : JMap κ ν) (p : κ × ν → Bool) (k : κ) (v : ν)
    (hm : NodupKeys m) (h : look m k = some v) (hp : p (k, v) = false) :
    look (m.filter p) k = none := by
  rcases hlf : look (m.filter p) k with _ | v'
  · rfl
  · have hmem := List.mem_filter.mp (mem_of_look _ k v' hlf)
    have : v' = v := by
      have := look_eq_of_mem_nodup m hm k v' hmem.1
      exact Option.some.inj (this.symm.trans h)
    rw [this] at hmem
    rw [hp] at hmem
    exact Bool.noConfusion hmem.2

theorem look_filter_none (m : JMap κ ν) (p : κ × ν → Bool) (k : κ)
    (h : look m k = none) : look (m.filter p) k = none := by
  rcases hlf : look (m.filter p) k with _ | v'
  · rfl
  · have hmem := List.mem_filter.mp (mem_of_look _ k v' hlf)
    have := look_isSome_of_mem m k v' hmem.1
    rw [h] at this
    exact Bool.noConfusion this

theorem mem_store_elim (m : JMap κ ν) (k : κ) (v : ν) (e : κ × ν)
    (h : e ∈ store m k v) : e = (k, v) ∨ e ∈ m := by
  rcases List.mem_cons.mp h with h1 | h1
  · exact Or.inl h1
  · exact Or.inr (List.mem_filter.mp h1).1

/-- Removing a list of keys is filtering on key membership. -/
theorem foldl_remove_eq_filter (ks : List κ) :
    ∀ m : JMap κ ν, ks.foldl remove m =
      m.filter (fun e => !(decide (e.1 ∈ ks))) := by
  induction ks with
  | nil =>
    intro m
    simp
  | cons k ks ih =>
    intro m
    rw [List.foldl_cons, ih (remove m k)]
    unfold remove
    rw [List.filter_filter]
    refine List.filter_congr ?_
    intro e _
    by_cases h1 : e.1 ∈ ks <;> by_cases h2 : e.1 = k <;>
      simp [h1, h2]

/-- In a nodup-key map, a nodup list of present keys selects exactly as
many entries as it has keys. -/
theorem length_filter_memkeys (m : JMap κ ν) (hm : NodupKeys m) :
    ∀ ks : List κ, ks.Nodup → (∀ k ∈ ks, k ∈ keys m) →
      (m.filter (fun e => decide (e.1 ∈ ks))).length = ks.length := by
  induction m with
  | nil =>
    intro ks hnd hpres
    cases ks with
    | nil => rfl
    | cons k ks => exact absurd (hpres k (List.mem_cons_self _ _)) (by simp [keys])
  | cons e m ih =>
    intro ks hnd hpres
    rcases List.nodup_cons.mp hm with ⟨hnotin, hndm⟩
    by_cases hk : e.1 ∈ ks
    · rw [List.filter_cons, if_pos (by simpa using hk)]
      have hstep : (m.filter (fun x => decide (x.1 ∈ ks))).length =
          (m.filter (fun x => decide (x.1 ∈ ks.erase e.1))).length := by
        congr 1
        refine List.filter_congr ?_
        intro x hx
        have hxne : x.1 ≠ e.1 := by
          intro hxe
          exact hnotin (hxe ▸ List.mem_map.mpr ⟨x, hx, rfl⟩)
        simp [List.mem_erase_of_ne hxne]
      have hpres' : ∀ k ∈ ks.erase e.1, k ∈ keys m := by
        intro k hkin
        have hk1 : k ∈ ks := List.mem_of_mem_erase hkin
        have hkne : k ≠ e.1 := by
          intro hke
          rw [hke] at hkin
          exact (List.Nodup.not_mem_erase hnd) hkin
        rcases hpres k hk1 with hin
        unfold keys at hin ⊢
        rw [List.map_cons] at hin
        rcases List.mem_cons.mp hin with h1 | h1
        · exact absurd h1 hkne
        · exact h1
      have hih := ih hndm (ks.erase e.1) (hnd.erase e.1) hpres'
      rw [List.length_cons, hstep, hih, List.length_erase_of_mem hk]
      have hkpos : 0 < ks.length := List.length_pos_of_mem hk
      omega
    · rw [List.filter_cons, if_neg (by simpa using hk)]
      refine ih hndm ks hnd ?_
      intro k hkin
      have := hpres k hkin
      unfold keys at this ⊢
      rw [List.map_cons] at this
      rcases List.mem_cons.mp this with h1 | h1
      · subst h1
        exact absurd hkin hk
      · exact h1

/-- Nodup-key maps that agree on every lookup have the same size. -/
theorem length_eq_of_look_eq (m1 m2 : JMap κ ν) (h1 : NodupKeys m1)
    (h2 : NodupKeys m2) (h : ∀ k, look m1 k = look m2 k) :
    m1.length = m2.length := by
  have hlen : ∀ (a b : JMap κ ν), NodupKeys a → NodupKeys b →
      (∀ k, look a k = look b k) → a.length ≤ b.length := by
    intro a b ha hb hab
    have hsub : keys a ⊆ keys b := by
      intro k hk
      rcases List.mem_map.mp hk with ⟨e, he, rfl⟩
      have := look_isSome_of_mem a e.1 e.2 he
      rw [hab e.1] at this
      exact memkey_of_look b e.1 this
    have := (List.subperm_of_subset ha hsub).length_le
    simpa [keys] using this
  exact Nat.le_antisymm (hlen m1 m2 h1 h2 h)
    (hlen m2 m1 h2 h1 (fun k => (h k).symm))

end JMap

/-- JS `Set.add` keeps all previous members and gains the new one. -/
theorem mem_setAdd_self (s : List String) (x : String) : x ∈ setAdd s x := by
  unfold setAdd
  by_cases h : x ∈ s <;> simp [h]

theorem mem_setAdd_of_mem (s : List String) (x y : String) (h : y ∈ s) :
    y ∈ setAdd s x := by
  unfold setAdd
  by_cases hx : x ∈ s <;> simp [hx, h]

theorem mem_setDel_of_mem (s : List String) (x y : String) (h : y ∈ s)
    (hne : y ≠ x) : y ∈ setDel s x := by
  unfold setDel
  exact List.mem_filter.mpr ⟨h, by simpa using hne⟩

/-! ## The operation machine for the correlation-completeness claim -/

/-- One public mutating operation of the isolation manager. -/
inductive ManagerOp where
  | createThread (employeeId threadId : String) (now : Nat)
  | register (toolCallId threadId runId employeeId functionName arguments :
      String) (now : Nat)
  | process (toolCallId output threadId runId : String) (now : Nat)
  | cleanup (now : Nat)
  | reset (employeeId newIsolationKey : String)
deriving DecidableEq, Repr

/-- Apply one operation; a thrown error leaves the state unchanged (every
throw in the source precedes the first mutation). -/
def applyOp (st : IsolationState) : ManagerOp → IsolationState
  | .createThread e th now =>
    match createConversationThread st e th now with
    | .ok (_, st') => st'
    | .error _ => st
  | .register tc th r e f a now =>
    match registerToolCall st tc th r e f a now with
    | .ok (_, st') => st'
    | .error _ => st
  | .process tc out th r now =>
    match processWebhookResponse st tc out th r now with
    | .ok (_, st') => st'
    | .error _ => st
  | .cleanup now => (cleanupOldOperations st now).2
  | .reset e key =>
    match resetEmployeeContext st e key with
    | .ok (_, st') => st'
    | .error _ => st

/-- A registration is fresh when its tool-call id is not currently
pending. -/
def freshOp (st : IsolationState) : ManagerOp → Bool
  | .register tc _ _ _ _ _ _ => (JMap.look st.pendingOperations tc).isNone
  | _ => true

/-- Every registration along the trace is fresh. -/
def freshTrace (st : IsolationState) : List ManagerOp → Bool
  | [] => true
  | op :: rest => freshOp st op && freshTrace (applyOp st op) rest

/-- The bookkeeping invariant of the isolation manager, maintained by every
operation whose registrations are fresh. -/
structure Inv (st : IsolationState) : Prop where
  ndCtx : JMap.NodupKeys st.employeeContexts
  ndTh : JMap.NodupKeys st.conversationThreads
  ndP : JMap.NodupKeys st.pendingOperations
  ndK : JMap.NodupKeys st.correlationKeys
  ctxOk : ∀ e ctx, JMap.look st.employeeContexts e = some ctx →
    JMap.NodupKeys ctx.pendingCalls ∧
    (∀ tc op, JMap.look ctx.pendingCalls tc = some op →
      JMap.look st.pendingOperations tc = some op ∧ op.employeeId = e)
  pendOk : ∀ tc op, JMap.look st.pendingOperations tc = some op →
    op.toolCallId = tc ∧ op.correlationKey.toolCallId = tc ∧
    (∃ ctx, JMap.look st.employeeContexts op.employeeId = some ctx ∧
      JMap.look ctx.pendingCalls tc = some op) ∧
    JMap.look st.correlationKeys op.correlationKey =
      some ⟨tc, op.employeeId, op.threadId, op.runId⟩
  keyOk : ∀ k m, JMap.look st.correlationKeys k = some m →
    ∃ op, JMap.look st.pendingOperations m.toolCallId = some op ∧
      op.correlationKey = k
  thOk : ∀ th td, JMap.look st.conversationThreads th = some td →
    ∃ ctx, JMap.look st.employeeContexts td.ownerEmployee = some ctx ∧
      th ∈ ctx.activeThreads
  sizeK : st.correlationKeys.size = st.pendingOperations.size
  sizeSum : employeePendingSum st = st.pendingOperations.size

/-- Under the invariant, the integrity audit reports healthy. -/
theorem validateIsolationIntegrity_of_inv (st : IsolationState)
    (hInv : Inv st) : validateIsolationIntegrity st = true := by
  unfold validateIsolationIntegrity
  rw [Bool.and_eq_true, Bool.and_eq_true]
  refine ⟨⟨by simp [hInv.sizeSum], by simp [hInv.sizeK]⟩, ?_⟩
  unfold threadOwnershipConsistent
  rw [List.all_eq_true]
  intro e he
  have hlook := JMap.look_eq_of_mem_nodup st.conversationThreads hInv.ndTh
    e.1 e.2 he
  obtain ⟨ctx, hctx, hmem⟩ := hInv.thOk e.1 e.2 hlook
  rw [hctx]
  simpa using hmem

/-- The startup state satisfies the invariant. -/
theorem inv_initState (specs : List EmployeeSpec) : Inv (initState specs) := by
  have hbuild : ∀ (specs : List EmployeeSpec) (m : JMap String EmployeeContext),
      JMap.NodupKeys m →
      (∀ e ∈ m, e.2.pendingCalls = ([] : JMap String ToolCallData)) →
      JMap.NodupKeys (specs.foldl
        (fun m spec => JMap.store m spec.employeeId (freshContext spec)) m) ∧
      (∀ e ∈ specs.foldl
        (fun m spec => JMap.store m spec.employeeId (freshContext spec)) m,
        e.2.pendingCalls = ([] : JMap String ToolCallData)) := by
    intro specs
    induction specs with
    | nil => intro m h1 h2; exact ⟨h1, h2⟩
    | cons spec specs ih =>
      intro m h1 h2
      rw [List.foldl_cons]
      refine ih _ (JMap.nodupKeys_store m _ _ h1) ?_
      intro e he
      rcases JMap.mem_store_elim m _ _ e he with h3 | h3
      · rw [h3]
        rfl
      · exact h2 e h3
  obtain ⟨hnd, hempty⟩ := hbuild specs [] (by simp [JMap.NodupKeys, JMap.keys])
    (by intro e he; simp at he)
  refine
    { ndCtx := hnd
      ndTh := by simp [initState, JMap.NodupKeys, JMap.keys]
      ndP := by simp [initState, JMap.NodupKeys, JMap.keys]
      ndK := by simp [initState, JMap.NodupKeys, JMap.keys]
      ctxOk := ?_
      pendOk := by intro tc op h; exact Option.noConfusion h
      keyOk := by intro k m h; exact Option.noConfusion h
      thOk := by intro th td h; exact Option.noConfusion h
      sizeK := rfl
      sizeSum := ?_ }
  · intro e ctx hctx
    have hmem := JMap.mem_of_look _ e ctx hctx
    have := hempty (e, ctx) hmem
    constructor
    · rw [this]
      simp [JMap.NodupKeys, JMap.keys]
    · intro tc op hop
      rw [this] at hop
      exact Option.noConfusion hop
  · unfold employeePendingSum initState
    rw [JMap.sumBy_eq_zero]
    · rfl
    · intro e he
      rw [hempty e he]
      rfl

/-- What a successful ownership validation guarantees. -/
theorem validateThreadOwnership_ok (st : IsolationState) (th e : String)
    (td : OwnedThreadData) (h : validateThreadOwnership st th e = .ok td) :
    JMap.look st.conversationThreads th = some td ∧ td.ownerEmployee = e ∧
    ∃ ctx, JMap.look st.employeeContexts e = some ctx ∧
      th ∈ ctx.activeThreads := by
  unfold validateThreadOwnership at h
  split at h
  · exact Except.noConfusion h
  rename_i td0 htd0
  split at h
  · exact Except.noConfusion h
  rename_i hne
  split at h
  · exact Except.noConfusion h
  rename_i ctx hctx
  split at h
  · rename_i hmem
    cases h
    exact ⟨htd0, not_not.mp hne, ctx, hctx, hmem⟩
  · exact Except.noConfusion h

/-- The operation `createConversationThread` preserves the invariant.  The lemma is
stated on the success state with the stored thread record abstracted (its
payload plays no role in the invariant). -/
theorem inv_createThread_state (st : IsolationState) (e th : String)
    (ctx : EmployeeContext) (d : ThreadData) (hInv : Inv st)
    (hctx : JMap.look st.employeeContexts e = some ctx) :
    Inv { st with
      employeeContexts := JMap.store st.employeeContexts e
        { ctx with activeThreads := setAdd ctx.activeThreads th,
                   conversationHistory :=
                     JMap.store ctx.conversationHistory th d },
      conversationThreads :=
        JMap.store st.conversationThreads th ⟨d, e⟩ } := by
  set ctx' : EmployeeContext :=
    { ctx with activeThreads := setAdd ctx.activeThreads th,
               conversationHistory :=
                 JMap.store ctx.conversationHistory th d } with hctx'
  have hpcalls : ctx'.pendingCalls = ctx.pendingCalls := rfl
  refine
    { ndCtx := JMap.nodupKeys_store _ _ _ hInv.ndCtx
      ndTh := JMap.nodupKeys_store _ _ _ hInv.ndTh
      ndP := hInv.ndP
      ndK := hInv.ndK
      ctxOk := ?_
      pendOk := ?_
      keyOk := hInv.keyOk
      thOk := ?_
      sizeK := hInv.sizeK
      sizeSum := ?_ }
  · intro e2 ctx2 hc2
    by_cases he2 : e2 = e
    · subst he2
      rw [JMap.look_store_self] at hc2
      have hc2' : ctx' = ctx2 := Option.some.inj hc2
      rw [← hc2', hpcalls]
      exact hInv.ctxOk e2 ctx hctx
    · rw [JMap.look_store_ne _ _ _ _ he2] at hc2
      exact hInv.ctxOk e2 ctx2 hc2
  · intro tc op hop
    obtain ⟨h1, h2, ⟨ctx0, hctx0, hpend0⟩, hkey⟩ := hInv.pendOk tc op hop
    refine ⟨h1, h2, ?_, hkey⟩
    by_cases hemp : op.employeeId = e
    · refine ⟨ctx', by rw [hemp, JMap.look_store_self], ?_⟩
      rw [hpcalls]
      have : ctx0 = ctx := by
        rw [hemp] at hctx0
        exact Option.some.inj (hctx0.symm.trans hctx)
      rw [← this]
      exact hpend0
    · exact ⟨ctx0, by rw [JMap.look_store_ne _ _ _ _ hemp]; exact hctx0, hpend0⟩
  · intro th2 td2 h2
    by_cases hth2 : th2 = th
    · subst hth2
      rw [JMap.look_store_self] at h2
      have htd2 : (⟨d, e⟩ : OwnedThreadData) = td2 := Option.some.inj h2
      rw [← htd2]
      exact ⟨ctx', JMap.look_store_self _ _ _, mem_setAdd_self _ _⟩
    · rw [JMap.look_store_ne _ _ _ _ hth2] at h2
      obtain ⟨ctx0, hctx0, hmem0⟩ := hInv.thOk th2 td2 h2
      by_cases hemp : td2.ownerEmployee = e
      · refine ⟨ctx', by rw [hemp, JMap.look_store_self], ?_⟩
        have : ctx0 = ctx := by
          rw [hemp] at hctx0
          exact Option.some.inj (hctx0.symm.trans hctx)
        exact mem_setAdd_of_mem _ _ _ (this ▸ hmem0)
      · exact ⟨ctx0, by rw [JMap.look_store_ne _ _ _ _ hemp]; exact hctx0, hmem0⟩
  · show JMap.sumBy (JMap.store st.employeeContexts e ctx')
      (fun c => c.pendingCalls.size) = st.pendingOperations.size
    have hsum : JMap.sumBy (JMap.store st.employeeContexts e ctx')
        (fun c => c.pendingCalls.size) + ctx.pendingCalls.size =
        JMap.sumBy st.employeeContexts (fun c => c.pendingCalls.size) +
        ctx'.pendingCalls.size :=
      JMap.sumBy_store_of_mem st.employeeContexts e ctx ctx'
        (fun c => c.pendingCalls.size) hInv.ndCtx hctx
    have hsz : ctx'.pendingCalls.size = ctx.pendingCalls.size := rfl
    have hold := hInv.sizeSum
    unfold employeePendingSum at hold
    omega

/-- The common removal shape shared by a successful
`processWebhookResponse` and one sweep step of `cleanupOldOperations`:
drop the pending record from the owning context (by any context update `g`
that erases the call and keeps the active-thread set), the global pending
map and the correlation index.  It preserves the invariant. -/
theorem inv_remove_state (st : IsolationState) (tc : String)
    (op : ToolCallData) (ctx : EmployeeContext)
    (g : EmployeeContext → EmployeeContext) (hInv : Inv st)
    (hop : JMap.look st.pendingOperations tc = some op)
    (hctx : JMap.look st.employeeContexts op.employeeId = some ctx)
    (hg1 : (g ctx).pendingCalls = JMap.remove ctx.pendingCalls tc)
    (hg2 : (g ctx).activeThreads = ctx.activeThreads) :
    Inv { st with
      employeeContexts := JMap.store st.employeeContexts op.employeeId (g ctx),
      pendingOperations := JMap.remove st.pendingOperations tc,
      correlationKeys := JMap.remove st.correlationKeys op.correlationKey } := by
  obtain ⟨hoptc, hopkey, ⟨ctx0, hctx0, hpend0⟩, hkey⟩ := hInv.pendOk tc op hop
  have hctx0eq : ctx0 = ctx := Option.some.inj (hctx0.symm.trans hctx)
  subst hctx0eq
  obtain ⟨hndPC, hctxPend⟩ := hInv.ctxOk op.employeeId ctx0 hctx
  refine
    { ndCtx := JMap.nodupKeys_store _ _ _ hInv.ndCtx
      ndTh := hInv.ndTh
      ndP := JMap.nodupKeys_remove _ _ hInv.ndP
      ndK := JMap.nodupKeys_remove _ _ hInv.ndK
      ctxOk := ?_
      pendOk := ?_
      keyOk := ?_
      thOk := ?_
      sizeK := ?_
      sizeSum := ?_ }
  · intro e2 ctx2 hc2
    by_cases he2 : e2 = op.employeeId
    · subst he2
      rw [JMap.look_store_self] at hc2
      have hc2' : g ctx0 = ctx2 := Option.some.inj hc2
      rw [← hc2', hg1]
      refine ⟨JMap.nodupKeys_remove _ _ hndPC, ?_⟩
      intro tc2 op2 hop2
      have htc2 : tc2 ≠ tc := by
        intro hq
        subst hq
        rw [JMap.look_remove_self] at hop2
        exact Option.noConfusion hop2
      rw [JMap.look_remove_ne _ _ _ htc2] at hop2
      obtain ⟨hP2, hE2⟩ := hctxPend tc2 op2 hop2
      exact ⟨by rw [JMap.look_remove_ne _ _ _ htc2]; exact hP2, hE2⟩
    · rw [JMap.look_store_ne _ _ _ _ he2] at hc2
      obtain ⟨hnd2, hpc2⟩ := hInv.ctxOk e2 ctx2 hc2
      refine ⟨hnd2, ?_⟩
      intro tc2 op2 hop2
      obtain ⟨hP2, hE2⟩ := hpc2 tc2 op2 hop2
      have htc2 : tc2 ≠ tc := by
        intro hq
        subst hq
        have : op2 = op := Option.some.inj (hP2.symm.trans hop)
        rw [this] at hE2
        exact he2 hE2.symm
      exact ⟨by rw [JMap.look_remove_ne _ _ _ htc2]; exact hP2, hE2⟩
  · intro tc2 op2 hop2
    have htc2 : tc2 ≠ tc := by
      intro hq
      subst hq
      rw [JMap.look_remove_self] at hop2
      exact Option.noConfusion hop2
    rw [JMap.look_remove_ne _ _ _ htc2] at hop2
    obtain ⟨h1, h2, ⟨ctx2, hctx2, hpend2⟩, hkey2⟩ := hInv.pendOk tc2 op2 hop2
    have hkne : op2.correlationKey ≠ op.correlationKey := by
      intro hq
      have := h2
      rw [hq, hopkey] at this
      exact htc2 this.symm
    refine ⟨h1, h2, ?_, by
      rw [JMap.look_remove_ne _ _ _ hkne]; exact hkey2⟩
    by_cases hemp : op2.employeeId = op.employeeId
    · refine ⟨g ctx0, by rw [hemp, JMap.look_store_self], ?_⟩
      rw [hg1, JMap.look_remove_ne _ _ _ htc2]
      have : ctx2 = ctx0 := by
        rw [hemp] at hctx2
        exact Option.some.inj (hctx2.symm.trans hctx)
      rw [← this]
      exact hpend2
    · exact ⟨ctx2, by rw [JMap.look_store_ne _ _ _ _ hemp]; exact hctx2, hpend2⟩
  · intro k2 m2 hk2
    have hkne : k2 ≠ op.correlationKey := by
      intro hq
      subst hq
      rw [JMap.look_remove_self] at hk2
      exact Option.noConfusion hk2
    rw [JMap.look_remove_ne _ _ _ hkne] at hk2
    obtain ⟨op2, hop2, hkeq⟩ := hInv.keyOk k2 m2 hk2
    have htc2 : m2.toolCallId ≠ tc := by
      intro hq
      rw [hq] at hop2
      have : op2 = op := Option.some.inj (hop2.symm.trans hop)
      rw [this] at hkeq
      exact hkne hkeq.symm
    exact ⟨op2, by rw [JMap.look_remove_ne _ _ _ htc2]; exact hop2, hkeq⟩
  · intro th2 td2 h2
    obtain ⟨ctx2, hctx2, hmem2⟩ := hInv.thOk th2 td2 h2
    by_cases hemp : td2.ownerEmployee = op.employeeId
    · refine ⟨g ctx0, by rw [hemp, JMap.look_store_self], ?_⟩
      rw [hg2]
      have : ctx2 = ctx0 := by
        rw [hemp] at hctx2
        exact Option.some.inj (hctx2.symm.trans hctx)
      exact this ▸ hmem2
    · exact ⟨ctx2, by rw [JMap.look_store_ne _ _ _ _ hemp]; exact hctx2, hmem2⟩
  · show (JMap.remove st.correlationKeys op.correlationKey).size =
      (JMap.remove st.pendingOperations tc).size
    have hK := JMap.size_remove_of_mem st.correlationKeys op.correlationKey _
      hInv.ndK hkey
    have hP := JMap.size_remove_of_mem st.pendingOperations tc op hInv.ndP hop
    have := hInv.sizeK
    omega
  · show JMap.sumBy (JMap.store st.employeeContexts op.employeeId (g ctx0))
      (fun c => c.pendingCalls.size) =
      (JMap.remove st.pendingOperations tc).size
    have hsum : JMap.sumBy (JMap.store st.employeeContexts op.employeeId
        (g ctx0)) (fun c => c.pendingCalls.size) + ctx0.pendingCalls.size =
        JMap.sumBy st.employeeContexts (fun c => c.pendingCalls.size) +
        (g ctx0).pendingCalls.size :=
      JMap.sumBy_store_of_mem st.employeeContexts op.employeeId
        ctx0 (g ctx0) (fun c => c.pendingCalls.size) hInv.ndCtx hctx
    have hg1' : (g ctx0).pendingCalls.size =
        (JMap.remove ctx0.pendingCalls tc).size := by rw [hg1]
    have hPC := JMap.size_remove_of_mem ctx0.pendingCalls tc op hndPC hpend0
    have hP := JMap.size_remove_of_mem st.pendingOperations tc op hInv.ndP hop
    have hold := hInv.sizeSum
    unfold employeePendingSum at hold
    omega

/-- A fresh registration preserves the invariant.  Stated on the success
state with the stored records abstracted by the field facts the invariant
needs: the pending record `ρ` carries the registered ids and the
component-built correlation key, the thread entry `dth` keeps owner `e`,
and the context update `g` stores the call and keeps the active set. -/
theorem inv_register_state (st : IsolationState) (tc th r e : String)
    (now : Nat) (ctx : EmployeeContext) (ρ : ToolCallData)
    (dth : OwnedThreadData) (g : EmployeeContext → EmployeeContext)
    (hInv : Inv st)
    (hfresh : JMap.look st.pendingOperations tc = none)
    (hctx : JMap.look st.employeeContexts e = some ctx)
    (hρid : ρ.toolCallId = tc) (hρe : ρ.employeeId = e)
    (hρth : ρ.threadId = th) (hρr : ρ.runId = r)
    (hρkey : ρ.correlationKey = ⟨e, th, r, tc, now⟩)
    (hg1 : (g ctx).pendingCalls = JMap.store ctx.pendingCalls tc ρ)
    (hg2 : (g ctx).activeThreads = ctx.activeThreads)
    (hdth : dth.ownerEmployee = e)
    (hthmem : th ∈ ctx.activeThreads) :
    Inv { st with
      employeeContexts := JMap.store st.employeeContexts e (g ctx),
      conversationThreads := JMap.store st.conversationThreads th dth,
      pendingOperations := JMap.store st.pendingOperations tc ρ,
      correlationKeys := JMap.store st.correlationKeys ρ.correlationKey
        ⟨tc, e, th, r⟩ } := by
  obtain ⟨hndPC, hctxPend⟩ := hInv.ctxOk e ctx hctx
  have hkeytc : ρ.correlationKey.toolCallId = tc := by rw [hρkey]
  have hKfresh : JMap.look st.correlationKeys ρ.correlationKey = none := by
    rcases hklook : JMap.look st.correlationKeys ρ.correlationKey with _ | m
    · rfl
    · obtain ⟨op', hop', hkeq⟩ := hInv.keyOk _ m hklook
      obtain ⟨_, hopkey, _, _⟩ := hInv.pendOk _ op' hop'
      rw [hkeq, hkeytc] at hopkey
      rw [← hopkey] at hop'
      rw [hfresh] at hop'
      exact Option.noConfusion hop'
  have hPCfresh : JMap.look ctx.pendingCalls tc = none := by
    rcases hlk : JMap.look ctx.pendingCalls tc with _ | op2
    · rfl
    · obtain ⟨hP2, _⟩ := hctxPend tc op2 hlk
      rw [hfresh] at hP2
      exact Option.noConfusion hP2
  refine
    { ndCtx := JMap.nodupKeys_store _ _ _ hInv.ndCtx
      ndTh := JMap.nodupKeys_store _ _ _ hInv.ndTh
      ndP := JMap.nodupKeys_store _ _ _ hInv.ndP
      ndK := JMap.nodupKeys_store _ _ _ hInv.ndK
      ctxOk := ?_
      pendOk := ?_
      keyOk := ?_
      thOk := ?_
      sizeK := ?_
      sizeSum := ?_ }
  · intro e2 ctx2 hc2
    by_cases he2 : e2 = e
    · subst he2
      rw [JMap.look_store_self] at hc2
      have hc2' : g ctx = ctx2 := Option.some.inj hc2
      rw [← hc2', hg1]
      refine ⟨JMap.nodupKeys_store _ _ _ hndPC, ?_⟩
      intro tc2 op2 hop2
      by_cases htc2 : tc2 = tc
      · subst htc2
        rw [JMap.look_store_self] at hop2
        have : ρ = op2 := Option.some.inj hop2
        rw [← this, JMap.look_store_self]
        exact ⟨rfl, hρe⟩
      · rw [JMap.look_store_ne _ _ _ _ htc2] at hop2
        obtain ⟨hP2, hE2⟩ := hctxPend tc2 op2 hop2
        exact ⟨by rw [JMap.look_store_ne _ _ _ _ htc2]; exact hP2, hE2⟩
    · rw [JMap.look_store_ne _ _ _ _ he2] at hc2
      obtain ⟨hnd2, hpc2⟩ := hInv.ctxOk e2 ctx2 hc2
      refine ⟨hnd2, ?_⟩
      intro tc2 op2 hop2
      obtain ⟨hP2, hE2⟩ := hpc2 tc2 op2 hop2
      have htc2 : tc2 ≠ tc := by
        intro hq
        subst hq
        rw [hfresh] at hP2
        exact Option.noConfusion hP2
      exact ⟨by rw [JMap.look_store_ne _ _ _ _ htc2]; exact hP2, hE2⟩
  · intro tc2 op2 hop2
    by_cases htc2 : tc2 = tc
    · subst htc2
      rw [JMap.look_store_self] at hop2
      have hρop : ρ = op2 := Option.some.inj hop2
      rw [← hρop]
      refine ⟨hρid, hkeytc, ?_, ?_⟩
      · refine ⟨g ctx, by rw [hρe, JMap.look_store_self], ?_⟩
        rw [hg1, JMap.look_store_self]
      · rw [JMap.look_store_self, hρe, hρth, hρr]
    · rw [JMap.look_store_ne _ _ _ _ htc2] at hop2
      obtain ⟨h1, h2, ⟨ctx2, hctx2, hpend2⟩, hkey2⟩ := hInv.pendOk tc2 op2 hop2
      have hkne : op2.correlationKey ≠ ρ.correlationKey := by
        intro hq
        rw [hq, hkeytc] at h2
        exact htc2 h2.symm
      refine ⟨h1, h2, ?_, by
        rw [JMap.look_store_ne _ _ _ _ hkne]; exact hkey2⟩
      by_cases hemp : op2.employeeId = e
      · refine ⟨g ctx, by rw [hemp, JMap.look_store_self], ?_⟩
        rw [hg1, JMap.look_store_ne _ _ _ _ htc2]
        have : ctx2 = ctx := by
          rw [hemp] at hctx2
          exact Option.some.inj (hctx2.symm.trans hctx)
        rw [← this]
        exact hpend2
      · exact ⟨ctx2, by rw [JMap.look_store_ne _ _ _ _ hemp]; exact hctx2,
          hpend2⟩
  · intro k2 m2 hk2
    by_cases hk2e : k2 = ρ.correlationKey
    · subst hk2e
      rw [JMap.look_store_self] at hk2
      have hm2 : (⟨tc, e, th, r⟩ : CorrelationMapping) = m2 :=
        Option.some.inj hk2
      refine ⟨ρ, ?_, rfl⟩
      rw [← hm2]
      show JMap.look (JMap.store st.pendingOperations tc ρ) tc = some ρ
      rw [JMap.look_store_self]
    · rw [JMap.look_store_ne _ _ _ _ hk2e] at hk2
      obtain ⟨op2, hop2, hkeq2⟩ := hInv.keyOk k2 m2 hk2
      have htc2 : m2.toolCallId ≠ tc := by
        intro hq
        rw [hq, hfresh] at hop2
        exact Option.noConfusion hop2
      exact ⟨op2, by rw [JMap.look_store_ne _ _ _ _ htc2]; exact hop2, hkeq2⟩
  · intro th2 td2 h2
    by_cases hth2 : th2 = th
    · subst hth2
      rw [JMap.look_store_self] at h2
      have htd2 : dth = td2 := Option.some.inj h2
      rw [← htd2, hdth]
      refine ⟨g ctx, JMap.look_store_self _ _ _, ?_⟩
      rw [hg2]
      exact hthmem
    · rw [JMap.look_store_ne _ _ _ _ hth2] at h2
      obtain ⟨ctx2, hctx2, hmem2⟩ := hInv.thOk th2 td2 h2
      by_cases hemp : td2.ownerEmployee = e
      · refine ⟨g ctx, by rw [hemp, JMap.look_store_self], ?_⟩
        rw [hg2]
        have : ctx2 = ctx := by
          rw [hemp] at hctx2
          exact Option.some.inj (hctx2.symm.trans hctx)
        exact this ▸ hmem2
      · exact ⟨ctx2, by rw [JMap.look_store_ne _ _ _ _ hemp]; exact hctx2,
          hmem2⟩
  · show (JMap.store st.correlationKeys ρ.correlationKey
      (⟨tc, e, th, r⟩ : CorrelationMapping)).size =
      (JMap.store st.pendingOperations tc ρ).size
    rw [JMap.size_store_of_fresh _ _ _ hKfresh,
      JMap.size_store_of_fresh _ _ _ hfresh, hInv.sizeK]
  · show JMap.sumBy (JMap.store st.employeeContexts e (g ctx))
      (fun c => c.pendingCalls.size) =
      (JMap.store st.pendingOperations tc ρ).size
    have hsum : JMap.sumBy (JMap.store st.employeeContexts e (g ctx))
        (fun c => c.pendingCalls.size) + ctx.pendingCalls.size =
        JMap.sumBy st.employeeContexts (fun c => c.pendingCalls.size) +
        (g ctx).pendingCalls.size :=
      JMap.sumBy_store_of_mem st.employeeContexts e ctx (g ctx)
        (fun c => c.pendingCalls.size) hInv.ndCtx hctx
    have hgsz : (g ctx).pendingCalls.size = ctx.pendingCalls.size + 1 := by
      rw [hg1]
      exact JMap.size_store_of_fresh _ _ _ hPCfresh
    have hPsz : (JMap.store st.pendingOperations tc ρ).size =
        st.pendingOperations.size + 1 :=
      JMap.size_store_of_fresh _ _ _ hfresh
    have hold := hInv.sizeSum
    unfold employeePendingSum at hold
    omega

theorem inv_createConversationThread (st : IsolationState) (e th : String)
    (now : Nat) (d : ThreadData) (st' : IsolationState) (hInv : Inv st)
    (hok : createConversationThread st e th now = .ok (d, st')) : Inv st' := by
  unfold createConversationThread at hok
  split at hok
  · exact Except.noConfusion hok
  rename_i ctx hctx
  cases hok
  exact inv_createThread_state st e th ctx _ hInv hctx

theorem inv_registerToolCall (st : IsolationState)
    (tc th r e f a : String) (now : Nat) (d : ToolCallData)
    (st' : IsolationState) (hInv : Inv st)
    (hfresh : JMap.look st.pendingOperations tc = none)
    (hok : registerToolCall st tc th r e f a now = .ok (d, st')) :
    Inv st' := by
  unfold registerToolCall at hok
  split at hok
  · exact Except.noConfusion hok
  rename_i td hval
  split at hok
  · exact Except.noConfusion hok
  rename_i ctx hctx
  cases hok
  obtain ⟨hT, hOwn, ctx2, hctx2, hthmem⟩ :=
    validateThreadOwnership_ok st th e td hval
  have hctx2eq : ctx2 = ctx := Option.some.inj (hctx2.symm.trans hctx)
  rw [hctx2eq] at hthmem
  exact inv_register_state st tc th r e now ctx _ _
    (fun c => { c with
      pendingCalls := JMap.store c.pendingCalls tc
        { toolCallId := tc, threadId := th, runId := r, employeeId := e,
          employeeName := ctx.name, functionName := f, arguments := a,
          correlationKey := generateCorrelationKey e th r tc now,
          isolationKey := ctx.isolationKey,
          conversationKey := td.data.conversationKey, registeredAt := now,
          status := "pending", webhookUrl := ctx.webhookUrl,
          retryCount := 0 },
      lastActivity := some now,
      totalOperations := c.totalOperations + 1 })
    hInv hfresh hctx rfl rfl rfl rfl rfl rfl rfl hOwn hthmem

theorem inv_processWebhookResponse (st : IsolationState)
    (tc out th r : String) (now : Nat) (resp : ProcessedResponse)
    (st' : IsolationState) (hInv : Inv st)
    (hok : processWebhookResponse st tc out th r now = .ok (resp, st')) :
    Inv st' := by
  unfold processWebhookResponse at hok
  split at hok
  · exact Except.noConfusion hok
  rename_i op hop
  split at hok
  · exact Except.noConfusion hok
  split at hok
  · exact Except.noConfusion hok
  split at hok
  · exact Except.noConfusion hok
  rename_i ctx hctx
  split at hok
  · exact Except.noConfusion hok
  split at hok
  · exact Except.noConfusion hok
  rename_i mapping hmapping
  split at hok
  · exact Except.noConfusion hok
  cases hok
  exact inv_remove_state st tc op ctx
    (fun c => { c with
      pendingCalls := JMap.remove c.pendingCalls tc,
      successfulOperations := c.successfulOperations + 1,
      lastActivity := some now,
      conversationHistory :=
        match JMap.look c.conversationHistory th with
        | some thd => JMap.store c.conversationHistory th
            { thd with lastActivity := now }
        | none => c.conversationHistory })
    hInv hop hctx rfl rfl

theorem inv_removeExpiredOp (st : IsolationState)
    (x : String × ToolCallData) (hInv : Inv st)
    (hx : JMap.look st.pendingOperations x.1 = some x.2) :
    Inv (removeExpiredOp st x) := by
  obtain ⟨_, _, ⟨ctx, hctx, _⟩, _⟩ := hInv.pendOk x.1 x.2 hx
  have hshape : removeExpiredOp st x = { st with
      employeeContexts := JMap.store st.employeeContexts x.2.employeeId
        { ctx with pendingCalls := JMap.remove ctx.pendingCalls x.1,
                   failedOperations := ctx.failedOperations + 1 },
      pendingOperations := JMap.remove st.pendingOperations x.1,
      correlationKeys :=
        JMap.remove st.correlationKeys x.2.correlationKey } := by
    unfold removeExpiredOp
    rw [hctx]
  rw [hshape]
  exact inv_remove_state st x.1 x.2 ctx
    (fun c => { c with pendingCalls := JMap.remove c.pendingCalls x.1,
                       failedOperations := c.failedOperations + 1 })
    hInv hx hctx rfl rfl

theorem inv_foldl_removeExpiredOp (L : List (String × ToolCallData)) :
    ∀ st : IsolationState, Inv st →
      (∀ x ∈ L, JMap.look st.pendingOperations x.1 = some x.2) →
      (L.map Prod.fst).Nodup → Inv (L.foldl removeExpiredOp st) := by
  induction L with
  | nil =>
    intro st hInv _ _
    exact hInv
  | cons x L ih =>
    intro st hInv hpres hnd
    rw [List.foldl_cons]
    rw [List.map_cons] at hnd
    rcases List.nodup_cons.mp hnd with ⟨hxnot, hndL⟩
    refine ih (removeExpiredOp st x)
      (inv_removeExpiredOp st x hInv (hpres x (List.mem_cons_self _ _))) ?_ hndL
    intro y hy
    have hyne : y.1 ≠ x.1 := by
      intro hq
      exact hxnot (hq ▸ List.mem_map.mpr ⟨y, hy, rfl⟩)
    have hyP : JMap.look (removeExpiredOp st x).pendingOperations y.1 =
        JMap.look (JMap.remove st.pendingOperations x.1) y.1 := by
      unfold removeExpiredOp
      split <;> rfl
    rw [hyP, JMap.look_remove_ne _ _ _ hyne]
    exact hpres y (List.mem_cons_of_mem _ hy)

theorem inv_removeStaleThread (st : IsolationState)
    (x : String × OwnedThreadData) (hInv : Inv st) :
    Inv (removeStaleThread st x) := by
  unfold removeStaleThread
  split
  · rename_i ctx hctx
    set ctx' : EmployeeContext :=
      { ctx with activeThreads := setDel ctx.activeThreads x.1,
                 conversationHistory :=
                   JMap.remove ctx.conversationHistory x.1 } with hctx'
    have hpcalls : ctx'.pendingCalls = ctx.pendingCalls := rfl
    refine
      { ndCtx := JMap.nodupKeys_store _ _ _ hInv.ndCtx
        ndTh := JMap.nodupKeys_remove _ _ hInv.ndTh
        ndP := hInv.ndP
        ndK := hInv.ndK
        ctxOk := ?_
        pendOk := ?_
        keyOk := hInv.keyOk
        thOk := ?_
        sizeK := hInv.sizeK
        sizeSum := ?_ }
    · intro e2 ctx2 hc2
      by_cases he2 : e2 = x.2.ownerEmployee
      · subst he2
        rw [JMap.look_store_self] at hc2
        have hc2' : ctx' = ctx2 := Option.some.inj hc2
        rw [← hc2', hpcalls]
        exact hInv.ctxOk _ ctx hctx
      · rw [JMap.look_store_ne _ _ _ _ he2] at hc2
        exact hInv.ctxOk e2 ctx2 hc2
    · intro tc op hop
      obtain ⟨h1, h2, ⟨ctx0, hctx0, hpend0⟩, hkey⟩ := hInv.pendOk tc op hop
      refine ⟨h1, h2, ?_, hkey⟩
      by_cases hemp : op.employeeId = x.2.ownerEmployee
      · refine ⟨ctx', by rw [hemp, JMap.look_store_self], ?_⟩
        rw [hpcalls]
        have : ctx0 = ctx := by
          rw [hemp] at hctx0
          exact Option.some.inj (hctx0.symm.trans hctx)
        rw [← this]
        exact hpend0
      · exact ⟨ctx0, by rw [JMap.look_store_ne _ _ _ _ hemp]; exact hctx0,
          hpend0⟩
    · intro th2 td2 h2
      have hne : th2 ≠ x.1 := by
        intro hq
        subst hq
        rw [JMap.look_remove_self] at h2
        exact Option.noConfusion h2
      rw [JMap.look_remove_ne _ _ _ hne] at h2
      obtain ⟨ctx2, hctx2, hmem2⟩ := hInv.thOk th2 td2 h2
      by_cases hemp : td2.ownerEmployee = x.2.ownerEmployee
      · refine ⟨ctx', by rw [hemp, JMap.look_store_self], ?_⟩
        have : ctx2 = ctx := by
          rw [hemp] at hctx2
          exact Option.some.inj (hctx2.symm.trans hctx)
        exact mem_setDel_of_mem _ _ _ (this ▸ hmem2) hne
      · exact ⟨ctx2, by rw [JMap.look_store_ne _ _ _ _ hemp]; exact hctx2,
          hmem2⟩
    · show JMap.sumBy (JMap.store st.employeeContexts x.2.ownerEmployee ctx')
        (fun c => c.pendingCalls.size) = st.pendingOperations.size
      have hsum : JMap.sumBy (JMap.store st.employeeContexts
          x.2.ownerEmployee ctx') (fun c => c.pendingCalls.size) +
          ctx.pendingCalls.size =
          JMap.sumBy st.employeeContexts (fun c => c.pendingCalls.size) +
          ctx'.pendingCalls.size :=
        JMap.sumBy_store_of_mem st.employeeContexts x.2.ownerEmployee ctx ctx'
          (fun c => c.pendingCalls.size) hInv.ndCtx hctx
      have hsz : ctx'.pendingCalls.size = ctx.pendingCalls.size := rfl
      have hold := hInv.sizeSum
      unfold employeePendingSum at hold
      omega
  · rename_i hctx
    refine
      { ndCtx := hInv.ndCtx
        ndTh := JMap.nodupKeys_remove _ _ hInv.ndTh
        ndP := hInv.ndP
        ndK := hInv.ndK
        ctxOk := hInv.ctxOk
        pendOk := hInv.pendOk
        keyOk := hInv.keyOk
        thOk := ?_
        sizeK := hInv.sizeK
        sizeSum := hInv.sizeSum }
    intro th2 td2 h2
    have hne : th2 ≠ x.1 := by
      intro hq
      subst hq
      rw [JMap.look_remove_self] at h2
      exact Option.noConfusion h2
    rw [JMap.look_remove_ne _ _ _ hne] at h2
    exact hInv.thOk th2 td2 h2

theorem inv_foldl_removeStaleThread (L : List (String × OwnedThreadData)) :
    ∀ st : IsolationState, Inv st → Inv (L.foldl removeStaleThread st) := by
  induction L with
  | nil => intro st hInv; exact hInv
  | cons x L ih =>
    intro st hInv
    rw [List.foldl_cons]
    exact ih _ (inv_removeStaleThread st x hInv)

theorem inv_cleanupOldOperations (st : IsolationState) (now : Nat)
    (hInv : Inv st) : Inv (cleanupOldOperations st now).2 := by
  unfold cleanupOldOperations
  refine inv_foldl_removeStaleThread _ _ (inv_foldl_removeExpiredOp _ st hInv
    ?_ ?_)
  · intro x hx
    exact JMap.look_eq_of_mem_nodup st.pendingOperations hInv.ndP x.1 x.2
      (by
        have := List.mem_filter.mp hx
        rcases x with ⟨a, b⟩
        exact this.1)
  · exact JMap.nodupKeys_filter st.pendingOperations _ hInv.ndP

theorem inv_resetEmployeeContext (st : IsolationState) (e key : String)
    (ctxR : EmployeeContext) (st' : IsolationState) (hInv : Inv st)
    (hok : resetEmployeeContext st e key = .ok (ctxR, st')) : Inv st' := by
  unfold resetEmployeeContext at hok
  split at hok
  · exact Except.noConfusion hok
  rename_i ctx hctx
  cases hok
  obtain ⟨hndPC, hctxPend⟩ := hInv.ctxOk e ctx hctx
  set eOps := st.pendingOperations.filter
    (fun x => decide (x.2.employeeId = e)) with heOps
  set eKeys := eOps.map Prod.fst with heKeys
  set ckeys := eOps.map (fun x => x.2.correlationKey) with hckeys
  have hndE : JMap.NodupKeys eOps :=
    JMap.nodupKeys_filter st.pendingOperations _ hInv.ndP
  have hndEKeys : eKeys.Nodup := hndE
  have hEmem : ∀ x ∈ eOps, JMap.look st.pendingOperations x.1 = some x.2 ∧
      x.2.employeeId = e := by
    intro x hx
    rcases List.mem_filter.mp hx with ⟨hxm, hxp⟩
    exact ⟨JMap.look_eq_of_mem_nodup _ hInv.ndP x.1 x.2
      (by rcases x with ⟨a, b⟩; exact hxm), by simpa using hxp⟩
  have hMemEKeys : ∀ tc op, JMap.look st.pendingOperations tc = some op →
      (tc ∈ eKeys ↔ op.employeeId = e) := by
    intro tc op hop
    constructor
    · intro htc
      obtain ⟨x, hx, hx1⟩ := List.mem_map.mp htc
      obtain ⟨hlook, hemp⟩ := hEmem x hx
      rw [hx1] at hlook
      have hxop : x.2 = op := Option.some.inj (hlook.symm.trans hop)
      rw [← hxop]
      exact hemp
    · intro hemp
      have hmem : (tc, op) ∈ eOps :=
        List.mem_filter.mpr ⟨JMap.mem_of_look _ _ _ hop, by simpa using hemp⟩
      exact List.mem_map.mpr ⟨(tc, op), hmem, rfl⟩
  have hckeysNodup : ckeys.Nodup := by
    refine List.Nodup.map_on ?_ (List.Nodup.of_map Prod.fst hndE)
    intro x hx y hy hxy
    obtain ⟨hlx, _⟩ := hEmem x hx
    obtain ⟨hly, _⟩ := hEmem y hy
    obtain ⟨_, hx2, _, _⟩ := hInv.pendOk x.1 x.2 hlx
    obtain ⟨_, hy2, _, _⟩ := hInv.pendOk y.1 y.2 hly
    have h1 : x.1 = y.1 := by rw [← hx2, ← hy2, hxy]
    have hlx' := JMap.look_eq_of_mem_nodup eOps hndE x.1 x.2 hx
    have hly' := JMap.look_eq_of_mem_nodup eOps hndE y.1 y.2 hy
    rw [← h1] at hly'
    have h2 : x.2 = y.2 := Option.some.inj (hlx'.symm.trans hly')
    rcases x with ⟨x1, x2⟩
    rcases y with ⟨y1, y2⟩
    simp only at h1 h2
    rw [h1, h2]
  have hckeysSub : ∀ k ∈ ckeys, k ∈ JMap.keys st.correlationKeys := by
    intro k hk
    obtain ⟨x, hx, hxk⟩ := List.mem_map.mp hk
    obtain ⟨hlx, _⟩ := hEmem x hx
    obtain ⟨_, _, _, hkey⟩ := hInv.pendOk x.1 x.2 hlx
    refine JMap.memkey_of_look _ _ ?_
    rw [← hxk, hkey]
    rfl
  have hkeyInE : ∀ tc op, JMap.look st.pendingOperations tc = some op →
      op.employeeId ≠ e → op.correlationKey ∉ ckeys := by
    intro tc op hop hne hmem
    obtain ⟨x, hx, hxk⟩ := List.mem_map.mp hmem
    obtain ⟨hlx, hxe⟩ := hEmem x hx
    obtain ⟨_, hx2, _, _⟩ := hInv.pendOk x.1 x.2 hlx
    obtain ⟨_, hop2, _, _⟩ := hInv.pendOk tc op hop
    have hx1 : x.1 = tc := by rw [← hx2, hxk, hop2]
    rw [hx1] at hlx
    have hxop : x.2 = op := Option.some.inj (hlx.symm.trans hop)
    exact hne (hxop ▸ hxe)
  have hfoldP : eOps.foldl (fun m x => JMap.remove m x.1)
      st.pendingOperations =
      st.pendingOperations.filter (fun x => !(decide (x.1 ∈ eKeys))) := by
    have h1 := JMap.foldl_remove_eq_filter (ν := ToolCallData) eKeys
      st.pendingOperations
    rw [heKeys] at h1
    rw [List.foldl_map] at h1
    exact h1
  have hfoldK : eOps.foldl (fun m x => JMap.remove m x.2.correlationKey)
      st.correlationKeys =
      st.correlationKeys.filter (fun x => !(decide (x.1 ∈ ckeys))) := by
    have h1 := JMap.foldl_remove_eq_filter (ν := CorrelationMapping) ckeys
      st.correlationKeys
    rw [hckeys] at h1
    rw [List.foldl_map] at h1
    exact h1
  rw [hfoldP, hfoldK]
  have hsplitP := List.length_eq_length_filter_add
    (l := st.pendingOperations) (fun x => decide (x.1 ∈ eKeys))
  have hcountP : (st.pendingOperations.filter
      (fun x => decide (x.1 ∈ eKeys))).length = eKeys.length := by
    refine JMap.length_filter_memkeys st.pendingOperations hInv.ndP eKeys
      hndEKeys ?_
    intro k hk
    obtain ⟨x, hx, hx1⟩ := List.mem_map.mp hk
    obtain ⟨hlx, _⟩ := hEmem x hx
    refine JMap.memkey_of_look _ _ ?_
    rw [← hx1, hlx]
    rfl
  have hsplitK := List.length_eq_length_filter_add
    (l := st.correlationKeys) (fun x => decide (x.1 ∈ ckeys))
  have hcountK : (st.correlationKeys.filter
      (fun x => decide (x.1 ∈ ckeys))).length = ckeys.length :=
    JMap.length_filter_memkeys st.correlationKeys hInv.ndK ckeys
      hckeysNodup hckeysSub
  have hctxLen : ctx.pendingCalls.length = eOps.length := by
    refine JMap.length_eq_of_look_eq ctx.pendingCalls eOps hndPC hndE ?_
    intro tc
    rcases hv : JMap.look ctx.pendingCalls tc with _ | op
    · rcases hv2 : JMap.look eOps tc with _ | op2
      · rfl
      · exfalso
        have hmem2 := JMap.mem_of_look eOps tc op2 hv2
        obtain ⟨hP2, hE2⟩ := hEmem (tc, op2) hmem2
        obtain ⟨_, _, ⟨ctx0, hctx0, hpend0⟩, _⟩ := hInv.pendOk tc op2 hP2
        have : ctx0 = ctx := by
          rw [hE2] at hctx0
          exact Option.some.inj (hctx0.symm.trans hctx)
        rw [this, hv] at hpend0
        exact Option.noConfusion hpend0
    · obtain ⟨hP2, hE2⟩ := hctxPend tc op hv
      have hmem : (tc, op) ∈ eOps :=
        List.mem_filter.mpr ⟨JMap.mem_of_look _ _ _ hP2, by simpa using hE2⟩
      rw [JMap.look_eq_of_mem_nodup eOps hndE tc op hmem]
  refine
    { ndCtx := JMap.nodupKeys_store _ _ _ hInv.ndCtx
      ndTh := JMap.nodupKeys_filter _ _ hInv.ndTh
      ndP := JMap.nodupKeys_filter _ _ hInv.ndP
      ndK := JMap.nodupKeys_filter _ _ hInv.ndK
      ctxOk := ?_
      pendOk := ?_
      keyOk := ?_
      thOk := ?_
      sizeK := ?_
      sizeSum := ?_ }
  · intro e2 ctx2 hc2
    by_cases he2 : e2 = e
    · subst he2
      rw [JMap.look_store_self] at hc2
      rw [← Option.some.inj hc2]
      constructor
      · show JMap.NodupKeys ([] : JMap String ToolCallData)
        simp [JMap.NodupKeys, JMap.keys]
      · intro tc op hop
        exact Option.noConfusion hop
    · rw [JMap.look_store_ne _ _ _ _ he2] at hc2
      obtain ⟨hnd2, hpc2⟩ := hInv.ctxOk e2 ctx2 hc2
      refine ⟨hnd2, ?_⟩
      intro tc2 op2 hop2
      obtain ⟨hP2, hE2⟩ := hpc2 tc2 op2 hop2
      have hnot : tc2 ∉ eKeys := by
        intro hmem
        exact he2 (hE2 ▸ (hMemEKeys tc2 op2 hP2).mp hmem)
      refine ⟨?_, hE2⟩
      exact JMap.look_filter_of_sat _ _ _ _ hInv.ndP hP2 (by simpa using hnot)
  · intro tc2 op2 hop2
    have hmem := JMap.mem_of_look _ tc2 op2 hop2
    rcases List.mem_filter.mp hmem with ⟨hmemP, hpred⟩
    have hP2 : JMap.look st.pendingOperations tc2 = some op2 :=
      JMap.look_eq_of_mem_nodup _ hInv.ndP tc2 op2 hmemP
    have hnot : tc2 ∉ eKeys := by simpa using hpred
    have hne : op2.employeeId ≠ e := by
      intro hq
      exact hnot ((hMemEKeys tc2 op2 hP2).mpr hq)
    obtain ⟨h1, h2, ⟨ctx2, hctx2, hpend2⟩, hkey2⟩ := hInv.pendOk tc2 op2 hP2
    refine ⟨h1, h2, ?_, ?_⟩
    · exact ⟨ctx2, by rw [JMap.look_store_ne _ _ _ _ hne]; exact hctx2, hpend2⟩
    · refine JMap.look_filter_of_sat _ _ _ _ hInv.ndK hkey2 ?_
      have := hkeyInE tc2 op2 hP2 hne
      simpa using this
  · intro k2 m2 hk2
    have hmem := JMap.mem_of_look _ k2 m2 hk2
    rcases List.mem_filter.mp hmem with ⟨hmemK, hpred⟩
    have hK2 : JMap.look st.correlationKeys k2 = some m2 :=
      JMap.look_eq_of_mem_nodup _ hInv.ndK k2 m2 hmemK
    have hnot : k2 ∉ ckeys := by simpa using hpred
    obtain ⟨op2, hop2, hkeq2⟩ := hInv.keyOk k2 m2 hK2
    have hne : op2.employeeId ≠ e := by
      intro hq
      refine hnot ?_
      rw [← hkeq2]
      have hmem2 : (m2.toolCallId, op2) ∈ eOps :=
        List.mem_filter.mpr ⟨JMap.mem_of_look _ _ _ hop2, by simpa using hq⟩
      exact List.mem_map.mpr ⟨(m2.toolCallId, op2), hmem2, rfl⟩
    have hnotK : m2.toolCallId ∉ eKeys := by
      intro hq
      exact hne ((hMemEKeys m2.toolCallId op2 hop2).mp hq)
    refine ⟨op2, ?_, hkeq2⟩
    exact JMap.look_filter_of_sat _ _ _ _ hInv.ndP hop2 (by simpa using hnotK)
  · intro th2 td2 h2
    have hmem := JMap.mem_of_look _ th2 td2 h2
    rcases List.mem_filter.mp hmem with ⟨hmemT, hpred⟩
    have hT2 : JMap.look st.conversationThreads th2 = some td2 :=
      JMap.look_eq_of_mem_nodup _ hInv.ndTh th2 td2 hmemT
    have hne : td2.ownerEmployee ≠ e := by simpa using hpred
    obtain ⟨ctx2, hctx2, hmem2⟩ := hInv.thOk th2 td2 hT2
    exact ⟨ctx2, by rw [JMap.look_store_ne _ _ _ _ hne]; exact hctx2, hmem2⟩
  · show (st.correlationKeys.filter (fun x => !(decide (x.1 ∈ ckeys)))).length
      = (st.pendingOperations.filter (fun x => !(decide (x.1 ∈ eKeys)))).length
    have hsk := hInv.sizeK
    unfold JMap.size at hsk
    have hEK : eKeys.length = eOps.length := List.length_map _ _
    have hCK : ckeys.length = eOps.length := List.length_map _ _
    omega
  · show JMap.sumBy (JMap.store st.employeeContexts e
        { ctx with activeThreads := [], pendingCalls := [],
                   conversationHistory := [], isolationKey := key,
                   lastActivity := none, totalOperations := 0,
                   successfulOperations := 0, failedOperations := 0 })
        (fun c => c.pendingCalls.size) =
      (st.pendingOperations.filter (fun x => !(decide (x.1 ∈ eKeys)))).length
    have hsum : JMap.sumBy (JMap.store st.employeeContexts e
        { ctx with activeThreads := [], pendingCalls := [],
                   conversationHistory := [], isolationKey := key,
                   lastActivity := none, totalOperations := 0,
                   successfulOperations := 0, failedOperations := 0 })
        (fun c => c.pendingCalls.size) + ctx.pendingCalls.size =
        JMap.sumBy st.employeeContexts (fun c => c.pendingCalls.size) + 0 :=
      JMap.sumBy_store_of_mem st.employeeContexts e ctx _
        (fun c => c.pendingCalls.size) hInv.ndCtx hctx
    have hold := hInv.sizeSum
    unfold employeePendingSum at hold
    have hb1 : st.pendingOperations.size = st.pendingOperations.length := rfl
    have hb2 : ctx.pendingCalls.size = ctx.pendingCalls.length := rfl
    have hEK : eKeys.length = eOps.length := List.length_map _ _
    omega

/-- Every operation preserves the invariant, as long as a registration's
tool-call id is fresh. -/
theorem inv_applyOp (st : IsolationState) (op : ManagerOp) (hInv : Inv st)
    (hfresh : freshOp st op = true) : Inv (applyOp st op) := by
  cases op with
  | createThread e th now =>
    simp only [applyOp]
    split
    · rename_i d st' hok
      exact inv_createConversationThread st e th now d st' hInv hok
    · exact hInv
  | register tc th r e f a now =>
    simp only [applyOp]
    split
    · rename_i d st' hok
      refine inv_registerToolCall st tc th r e f a now d st' hInv ?_ hok
      have : (JMap.look st.pendingOperations tc).isNone = true := hfresh
      exact Option.isNone_iff_eq_none.mp this
    · exact hInv
  | process tc out th r now =>
    simp only [applyOp]
    split
    · rename_i resp st' hok
      exact inv_processWebhookResponse st tc out th r now resp st' hInv hok
    · exact hInv
  | cleanup now =>
    exact inv_cleanupOldOperations st now hInv
  | reset e k =>
    simp only [applyOp]
    split
    · rename_i ctxR st' hok
      exact inv_resetEmployeeContext st e k ctxR st' hInv hok
    · exact hInv

/-- Run a sequence of public operations from a state. -/
def runOps (st : IsolationState) (ops : List ManagerOp) : IsolationState :=
  ops.foldl applyOp st

theorem inv_runOps (ops : List ManagerOp) :
    ∀ st : IsolationState, Inv st → freshTrace st ops = true →
      Inv (runOps st ops) := by
  induction ops with
  | nil =>
    intro st hInv _
    exact hInv
  | cons op ops ih =>
    intro st hInv htr
    rw [freshTrace, Bool.and_eq_true] at htr
    exact ih (applyOp st op) (inv_applyOp st op hInv htr.1) htr.2

/-- C4, amended.  The claim fails for sequences that re-register a
currently pending tool-call id (see the counterexample); for every sequence
of public operations in which each registration's tool-call id is fresh —
not currently pending — the correlation index and the pending set stay in
exact one-to-one correspondence: after any such sequence from startup the
correlation-index size equals the global pending count and
`validateIsolationIntegrity` reports healthy. -/
theorem claim4_correlation_completeness_amended (specs : List EmployeeSpec)
    (ops : List ManagerOp)
    (hfresh : freshTrace (initState specs) ops = true) :
    validateIsolationIntegrity (runOps (initState specs) ops) = true ∧
    (runOps (initState specs) ops).correlationKeys.size =
      (runOps (initState specs) ops).pendingOperations.size := by
  have hInv := inv_runOps ops (initState specs) (inv_initState specs) hfresh
  exact ⟨validateIsolationIntegrity_of_inv _ hInv, hInv.sizeK⟩

/-- The C4 witness trace: a thread, a fresh registration, its consumption,
a cleanup sweep and an emergency reset of the other employee. -/
def c4Ops : List ManagerOp :=
  [.createThread "brenden" "th1" 100,
   .register "tc1" "th1" "run1" "brenden" "scrape_leads" "{}" 200,
   .process "tc1" "res" "th1" "run1" 300,
   .cleanup 400,
   .reset "van" "isoV2"]

/-- C4 amended, witness: the witness trace is fresh and leaves the audit
healthy with index and pending sizes equal. -/
theorem claim4_correlation_completeness_amended_witness :
    freshTrace (initState demoSpecs) c4Ops = true ∧
    validateIsolationIntegrity (runOps (initState demoSpecs) c4Ops) = true ∧
    (runOps (initState demoSpecs) c4Ops).correlationKeys.size =
      (runOps (initState demoSpecs) c4Ops).pendingOperations.size := by
  have h := claim4_correlation_completeness_amended demoSpecs c4Ops (by decide)
  exact ⟨by decide, h.1, h.2⟩

end SalonsMarket
